import Mathlib

/-!
# Verification of the `afsklearn` one-hot encoder

A shallow embedding of `src/afsklearn/preprocessing/_encoders.py`
(`_BaseEncoder` and `OneHotEncoder`) together with proofs of the
spec's claims about it.

Conventions of the embedding:
* Cell values are `NVal`: an integer-valued number or the NaN sentinel
  (the code is generic over dtypes; the claims do not depend on more of
  the dtype than the presence of NaN).  Vocabulary membership matches
  NaN to NaN; the array operators `==`/`!=` used by the fit-time sort
  check follow IEEE semantics instead.
* Matrices are lists of rows; the rectangularity that `numpy` enforces on
  its inputs appears as explicit shape checks or hypotheses.
* Raised exceptions become `Except Err`; each `raise` of the source maps
  to one `Err` constructor.
* Methods that could assign to `self` are embedded as functions that also
  return the (possibly updated) fitted state, so that absence of mutation
  is a provable statement.
* Helper modules of the repository that are not part of the provided
  source (`afsklearn/_encode.py`, `afsklearn/_validation.py`) and the
  external array library primitives (`af.sort`) are modelled from the
  spec; each such definition is marked in its doc comment.
-/

namespace AfSklearn

/-- A numeric scalar as stored in a float column: an integer-valued number
or the NaN sentinel. -/
inductive NVal where
  | num (v : Int)
  | nan
  deriving DecidableEq, Repr

/-- IEEE equality of two scalars: NaN compares unequal to everything,
including itself.  This is the semantics of the array `==`/`!=` operators
used by the source. -/
def NVal.ieeeEq : NVal → NVal → Bool
  | .num a, .num b => a == b
  | _, _ => false

/-- IEEE disequality, the array `!=` operator. -/
def NVal.ieeeNe (a b : NVal) : Bool := !(a.ieeeEq b)

/-- `af.isnan` on one scalar. -/
def NVal.isNan : NVal → Bool
  | .num _ => false
  | .nan => true

/-- The numeric part of a scalar, if it is not NaN. -/
def NVal.numPart : NVal → Option Int
  | .num a => some a
  | .nan => none

/-- Comparison used to state "sorted ascending with any NaN placed last":
numbers are ordered as usual and NaN is greatest. -/
def NVal.leb : NVal → NVal → Bool
  | .num a, .num b => a ≤ b
  | .nan, .num _ => false
  | _, .nan => true

/-- The error taxonomy of the encoder: one constructor per `raise` site of
the source. -/
inductive Err where
  /-- `handle_unknown` is neither `'error'` nor `'ignore'` (`_validate_keywords`). -/
  | badHandleUnknown
  /-- `drop` combined with `handle_unknown != 'error'` (`_validate_keywords`). -/
  | dropWithIgnore
  /-- supplied `categories` list length differs from the column count (`_fit`). -/
  | categoriesShapeMismatch
  /-- unsorted numeric categories (`_fit`). -/
  | unsortedCategories
  /-- values outside the supplied categories found during fit (`_fit`). -/
  | unknownDuringFit (col : Nat)
  /-- column count of `X` differs from the fitted one (`_transform`). -/
  | featureCountMismatch
  /-- unknown categories under `handle_unknown='error'` (`_transform`). -/
  | unknownDuringTransform (col : Nat)
  /-- malformed `drop` parameter (`_compute_drop_idx`). -/
  | badDropParam
  /-- explicit `drop` list length differs from the column count (`_compute_drop_idx`). -/
  | dropLenMismatch
  /-- explicit drop values absent from the fitted vocabularies, with every
  offending (column, value) pair (`_compute_drop_idx`). -/
  | missingDrops (pairs : List (Nat × NVal))
  /-- column count mismatch in `inverse_transform`. -/
  | inverseShapeMismatch
  /-- all-zero rows with `drop=None` and `handle_unknown='error'`
  (`inverse_transform`). -/
  | inversionAllZero
  /-- the unintended numpy broadcast `ValueError` of
  `X_tr[dropped, i] = self.categories_[i][self.drop_idx_[i]]`
  (`inverse_transform`, line 541) when the per-column drop entry is
  `None`: `categories_[i][None]` is a newaxis view of shape
  `(1, n_categories)` whose assignment into the 1-D target cannot
  broadcast, so the call crashes instead of substituting a value. -/
  | broadcastMismatch
  deriving DecidableEq, Repr

/-- The fitted state of the encoder: the `categories_` and `drop_idx_`
attributes set by `fit`. -/
structure FittedState where
  categories_ : List (List NVal)
  drop_idx_ : Option (List (Option Nat))
  deriving DecidableEq, Repr

/-- One cell of `_BaseEncoder._transform` (source lines 113-146): the
validity test against the fitted categories (modelled from the spec's
Unknown Detector, §4.2, for the repository module `afsklearn/_encode.py`
which is absent from `src/`), the substitution of the placeholder
`categories_[i][0]` for invalid values, and the integer encoding as the
position in the category list (modelled from the spec's Integer Encoder,
§4.3, for the absent `_encode`). -/
def transformCell (cats : List NVal) (v : NVal) : Nat × Bool :=
  let valid := cats.contains v
  let v' := if valid then v else cats.headD (NVal.num 0)
  (cats.indexOf v', valid)

/-- `_BaseEncoder._transform` (source lines 98-148): per-column validity
masks and integer codes.  Under `handle_unknown='error'` the first column
containing an unknown value raises; otherwise unknown cells are masked
off and encoded as the placeholder.  On the success paths the final mask
of a cell always equals its validity bit. -/
def baseTransform (categories_ : List (List NVal)) (handle_unknown : String)
    (X : List (List NVal)) : Except Err (List (List Nat) × List (List Bool)) :=
  if X.any (fun row => row.length ≠ categories_.length) then
    .error .featureCountMismatch
  else
    match (List.range categories_.length).find? (fun i =>
        handle_unknown == "error" &&
          X.any (fun row => !((categories_.getD i []).contains (row.getD i (NVal.num 0))))) with
    | some i => .error (.unknownDuringTransform i)
    | none =>
      .ok (X.map (fun row => List.zipWith (fun c v => (transformCell c v).1) categories_ row),
           X.map (fun row => List.zipWith (fun c v => (transformCell c v).2) categories_ row))

/-- One cell of the drop adjustment in `OneHotEncoder.transform` (source
lines 424-443): `keep_cells = X_int != to_drop` is computed against the
original `drop_idx_` entry (comparison with `None` is numpy-`True`), the
`None` entries are then replaced by the sentinel `n_cats`, codes strictly
above the drop index are decremented (`X_int[X_int > to_drop] -= 1`), and
the mask is conjoined with `keep_cells` (`X_mask &= keep_cells`). -/
def dropAdjustCell (nCats : Nat) (d : Option Nat) (code : Nat) (m : Bool) :
    Nat × Bool :=
  let keep : Bool :=
    match d with
    | none => true
    | some dd => code != dd
  let toDrop := d.getD nCats
  (if toDrop < code then code - 1 else code, m && keep)

/-- The drop adjustment of one row of `X_int`/`X_mask`. -/
def adjustRow (categories_ : List (List NVal)) (toDrop : List (Option Nat))
    (codes : List Nat) (mask : List Bool) : List (Nat × Bool) :=
  List.zipWith (fun (cd : List NVal × Option Nat) (cm : Nat × Bool) =>
      dropAdjustCell cd.1.length cd.2 cm.1 cm.2)
    (categories_.zip toDrop) (codes.zip mask)

/-- The drop-adjustment stage of `OneHotEncoder.transform` applied to all
rows; with `drop_idx_ = None` the codes and masks pass through. -/
def adjustedRows (s : FittedState) (codes : List (List Nat))
    (masks : List (List Bool)) : List (List Nat × List Bool) :=
  List.zipWith (fun c m =>
    match s.drop_idx_ with
    | none => (c, m)
    | some toDrop =>
      let a := adjustRow s.categories_ toDrop c m
      (a.map Prod.fst, a.map Prod.snd)) codes masks

/-- The codes/mask pair of one row after the drop adjustment: the
row-level view of `adjustedRows` over the `baseTransform` output. -/
def transformRowPair (s : FittedState) (row : List NVal) :
    List Nat × List Bool :=
  match s.drop_idx_ with
  | none =>
    (List.zipWith (fun c v => (transformCell c v).1) s.categories_ row,
     List.zipWith (fun c v => (transformCell c v).2) s.categories_ row)
  | some toDrop =>
    let a := adjustRow s.categories_ toDrop
      (List.zipWith (fun c v => (transformCell c v).1) s.categories_ row)
      (List.zipWith (fun c v => (transformCell c v).2) s.categories_ row)
    (a.map Prod.fst, a.map Prod.snd)

/-- The per-column output widths `n_values` of `OneHotEncoder.transform`
(source lines 429-445): full cardinality for columns without a drop,
cardinality minus one for dropped columns. -/
def nValues (categories_ : List (List NVal)) (dropIdx : Option (List (Option Nat))) :
    List Nat :=
  match dropIdx with
  | none => categories_.map List.length
  | some l =>
    List.zipWith (fun (cats : List NVal) (d : Option Nat) =>
      match d with
      | none => cats.length
      | some _ => cats.length - 1) categories_ l

/-- `feature_indices = np.cumsum([0] + n_values)`: the base offset of each
column in the flattened output space, with the total width appended. -/
def featureIndices (nvals : List Nat) : List Nat := nvals.scanl (· + ·) 0

/-- The flattened column indices contributed by one row:
`(X_int + feature_indices[:-1]).ravel()[mask]` restricted to the row. -/
def rowEntries (offs : List Nat) (codes : List Nat) (mask : List Bool) :
    List Nat :=
  ((List.zipWith (fun c o => c + o) codes offs).zip mask).filterMap
    (fun p => if p.2 then some p.1 else none)

/-- A CSR sparse matrix as assembled by `OneHotEncoder.transform`:
`data`, `indices`, `indptr` and the declared shape. -/
structure CSR where
  data : List Nat
  indices : List Nat
  indptr : List Nat
  nrows : Nat
  ncols : Nat
  deriving DecidableEq, Repr

/-- The CSR assembly of `OneHotEncoder.transform` (source lines 447-459):
row-major flattened indices filtered by the mask, row pointers as the
cumulative counts of mask-true cells, all stored values `1`, and shape
`(n_samples, feature_indices[-1])`. -/
def assembleCSR (nvals : List Nat) (rows : List (List Nat × List Bool)) : CSR :=
  let offs := featureIndices nvals
  let ents := rows.map (fun rc => rowEntries offs rc.1 rc.2)
  let counts := rows.map (fun rc => rc.2.count true)
  { data := List.replicate counts.sum 1
    indices := ents.flatten
    indptr := counts.scanl (· + ·) 0
    nrows := rows.length
    ncols := (featureIndices nvals).getLastD 0 }

/-- `OneHotEncoder.transform` (source lines 403-463).  The second
component of the result is the fitted state after the call: the method
only reads `self.categories_`/`self.drop_idx_` (it copies `drop_idx_`
before editing the copy), so the state passes through unchanged. -/
def OneHotEncoder.transform (s : FittedState) (handle_unknown : String)
    (X : List (List NVal)) : Except Err CSR × FittedState :=
  (do
    let tm ← baseTransform s.categories_ handle_unknown X
    pure (assembleCSR (nValues s.categories_ s.drop_idx_)
      (adjustedRows s tm.1 tm.2)), s)

/-- The final validity mask of a `transform` call (the `X_mask` after
`X_mask &= keep_cells`), used to state the row-pointer invariant. -/
def finalMasks (s : FittedState) (handle_unknown : String)
    (X : List (List NVal)) : List (List Bool) :=
  match baseTransform s.categories_ handle_unknown X with
  | .ok tm => (adjustedRows s tm.1 tm.2).map Prod.snd
  | .error _ => []

/-- One row of `scipy.sparse.csr_matrix(...).toarray()`: the entries at
positions `[indptr[r], indptr[r+1])` of `indices`/`data`, accumulated per
output column. -/
def CSR.denseRow (m : CSR) (r : Nat) : List Nat :=
  let lo := m.indptr.getD r 0
  let hi := m.indptr.getD (r + 1) 0
  let idxs := (m.indices.take hi).drop lo
  let vals := (m.data.take hi).drop lo
  (List.range m.ncols).map (fun c =>
    ((idxs.zip vals).filterMap (fun p => if p.1 = c then some p.2 else none)).sum)

/-- `scipy.sparse.csr_matrix(...).toarray()`. -/
def CSR.toDense (m : CSR) : List (List Nat) :=
  (List.range m.nrows).map m.denseRow

/-- `OneHotEncoder.transform` with `sparse=False`: the densified output
(`out.toarray()`, source lines 460-461). -/
def OneHotEncoder.transformDense (s : FittedState) (handle_unknown : String)
    (X : List (List NVal)) : Except Err (List (List Nat)) :=
  (OneHotEncoder.transform s handle_unknown X).1.map CSR.toDense

/-- `np.argmax` over one row: the position of the first maximal entry. -/
def argmaxFirst : List Nat → Nat
  | [] => 0
  | x :: xs =>
    let j := argmaxFirst xs
    if xs.getD j 0 > x then j + 1 else 0

/-- The `drop_idx_` entry for column `i` (`None` when `drop_idx_` itself
is `None`). -/
def FittedState.dropAt (s : FittedState) (i : Nat) : Option Nat :=
  match s.drop_idx_ with
  | none => none
  | some l => l.getD i none

/-- The effective category list of column `i` in `inverse_transform`
(source lines 508-511): the fitted categories with the dropped one
removed (`np.delete`). -/
def FittedState.effCats (s : FittedState) (i : Nat) : List NVal :=
  match s.dropAt i with
  | none => s.categories_.getD i []
  | some d => (s.categories_.getD i []).eraseIdx d

/-- `n_transformed_features` of `inverse_transform` (source lines 485-492). -/
def nTransformed (s : FittedState) : Nat :=
  (nValues s.categories_ s.drop_idx_).sum

/-- One column of the `inverse_transform` loop (source lines 507-545),
given the sub-blocks `X[:, j:j+n_categories]` of every row: a zero-width
column (a single-category column whose only category was dropped) is
filled with the dropped category; otherwise each row recovers the
category at the argmax of its sub-block, all-zero sub-blocks becoming the
`None` sentinel under `handle_unknown='ignore'`, and otherwise: an
inversion error when `drop_idx_` is `None`; the dropped category
`categories_[i][drop_idx_[i]]` when the column's drop entry is an index;
and, when the drop entry itself is `None` (the if-binary no-drop
sentinel), the crash of line 541 — `categories_[i][None]` is a numpy
newaxis view whose assignment into the 1-D target raises a broadcast
`ValueError`. -/
def invColumn (s : FittedState) (handle_unknown : String) (i : Nat)
    (subs : List (List Nat)) : Except Err (List (Option NVal)) :=
  let catsFull := s.categories_.getD i []
  let cats := s.effCats i
  if cats.length = 0 then
    .ok (List.replicate subs.length (some (catsFull.getD ((s.dropAt i).getD 0) (NVal.num 0))))
  else
    let base := subs.map (fun sub => cats.getD (argmaxFirst sub) (NVal.num 0))
    if handle_unknown == "ignore" then
      .ok (List.zipWith (fun sub b => if sub.sum = 0 then none else some b) subs base)
    else
      if subs.any (fun sub => sub.sum = 0) then
        if s.drop_idx_.isNone then
          .error .inversionAllZero
        else
          match s.dropAt i with
          | none => .error .broadcastMismatch
          | some d =>
            .ok (List.zipWith (fun sub b =>
              if sub.sum = 0 then some (catsFull.getD d (NVal.num 0))
              else some b) subs base)
      else
        .ok (base.map some)

/-- The column loop of `inverse_transform`: processes the columns listed
in `idxs` starting at flattened offset `j`, advancing `j` by each
column's effective width. -/
def invGo (s : FittedState) (handle_unknown : String) (X : List (List Nat)) :
    List Nat → Nat → Except Err (List (List (Option NVal)))
  | [], _ => .ok []
  | i :: rest, j => do
    let w := (s.effCats i).length
    let col ← invColumn s handle_unknown i (X.map (fun row => (row.drop j).take w))
    let cols ← invGo s handle_unknown X rest (j + w)
    pure (col :: cols)

/-- Reassembling the per-column results `X_tr[:, i]` into rows. -/
def colsToRows (nRows : Nat) (cols : List (List (Option NVal))) :
    List (List (Option NVal)) :=
  (List.range nRows).map (fun r => cols.map (fun c => c.getD r none))

/-- `OneHotEncoder.inverse_transform` (source lines 465-556), over the
densified input.  Cells are `Option Int`: `none` is the `None` sentinel
written for unrepresentable cells (the object-dtype upcast of source
lines 549-554).  The second component is the fitted state after the call,
which the method never writes. -/
def OneHotEncoder.inverse_transform (s : FittedState) (handle_unknown : String)
    (X : List (List Nat)) :
    Except Err (List (List (Option NVal))) × FittedState :=
  (if X.any (fun row => row.length ≠ nTransformed s) then
    .error .inverseShapeMismatch
  else
    (invGo s handle_unknown X (List.range s.categories_.length) 0).map
      (colsToRows X.length), s)

/-! ## Fit-time layer

`fit` is embedded over `NVal` columns (numeric float columns, the dtype
for which the source's category sort check applies). -/

/-- The `drop` constructor parameter. -/
inductive DropParam where
  /-- `drop=None`. -/
  | noDrop
  /-- `drop='first'`. -/
  | first
  /-- `drop='if_binary'`. -/
  | ifBinary
  /-- `drop=<array of per-column category values>`. -/
  | explicitDrop (vals : List NVal)
  deriving DecidableEq, Repr

/-- Whether `self.drop is None`. -/
def DropParam.isNone : DropParam → Bool
  | .noDrop => true
  | _ => false

/-- The constructor parameters of `OneHotEncoder`; `categories = none`
models `categories='auto'`. -/
structure Config where
  categories : Option (List (List NVal))
  drop : DropParam
  handle_unknown : String
  deriving DecidableEq, Repr

/-- `OneHotEncoder._validate_keywords` (source lines 288-300). -/
def validateKeywords (cfg : Config) : Except Err Unit :=
  if cfg.handle_unknown ≠ "error" ∧ cfg.handle_unknown ≠ "ignore" then
    .error .badHandleUnknown
  else if ¬cfg.drop.isNone ∧ cfg.handle_unknown ≠ "error" then
    .error .dropWithIgnore
  else
    .ok ()

/-- Modelled behavior of the external array sort (`af.sort`, with the
NaN placement the source's comment on line 83 assumes and numpy
implements): numbers ascending, every NaN moved last. -/
def afSort (l : List NVal) : List NVal :=
  ((l.filterMap NVal.numPart).insertionSort (· ≤ ·)).map NVal.num ++
    List.replicate (l.count NVal.nan) NVal.nan

/-- The numeric-category sort check of `_BaseEncoder._fit` (source lines
80-88), transcribed literally: `sorted_cats = af.sort(cats)`,
`stop_idx = -1 if af.isnan(sorted_cats[-1]) else None`, and the check
raises iff `af.any_true(sorted_cats[:stop_idx] != cats[:stop_idx])` or
the (always false) `af.isnan(sorted_cats[-1]) and not
af.isnan(sorted_cats[-1])` holds. -/
def unsortedCheckFails (cats : List NVal) : Bool :=
  let sorted := afSort cats
  let lastIsNan := (sorted.getLastD NVal.nan).isNan
  let sPre := if lastIsNan then sorted.dropLast else sorted
  let cPre := if lastIsNan then cats.dropLast else cats
  (List.zipWith NVal.ieeeNe sPre cPre).any id || (lastIsNan && !lastIsNan)

/-- Modelled from the spec: the Unknown Detector (§4.2) of the repository
module `afsklearn/_encode.py`, absent from `src/`, at fit time
(`_check_unknown(Xi, cats)`): the values of the column not found in the
category set, with the NaN sentinel matched to the NaN sentinel. -/
def fitDiff (col : List NVal) (cats : List NVal) : List NVal :=
  col.filter (fun v => !cats.contains v)

/-- Modelled from the spec: the CategorySet Builder (§4.1) of the absent
`afsklearn/_encode.py` in `'auto'` mode (`_unique(Xi)`): the deduplicated
values of the column in ascending order, NaN last. -/
def uniqueCats (col : List NVal) : List NVal :=
  afSort col.dedup

/-- The body of the `_BaseEncoder._fit` column loop (source lines 73-96)
for one numeric column: category selection, the sort check for supplied
categories, and the unknown check under `handle_unknown='error'`. -/
def fitOneColumn (supplied : Option (List NVal)) (handle_unknown : String)
    (col : List NVal) : Except Err (List NVal) :=
  match supplied with
  | none => .ok (uniqueCats col)
  | some cats =>
    if unsortedCheckFails cats then
      .error .unsortedCategories
    else if handle_unknown == "error" ∧ fitDiff col cats ≠ [] then
      .error (.unknownDuringFit 0)
    else
      .ok cats

/-- `_BaseEncoder._fit` (source lines 62-96) over the columns of `X`:
the shape check against a supplied `categories` list, then the per-column
loop.  Errors carry the index of the first offending column. -/
def baseFit (cfg : Config) (cols : List (List NVal)) :
    Except Err (List (List NVal)) :=
  match cfg.categories with
  | none => .ok (cols.map uniqueCats)
  | some cs =>
    if cs.length ≠ cols.length then
      .error .categoriesShapeMismatch
    else
      (List.range cols.length).foldr (fun i acc => do
        match fitOneColumn (some (cs.getD i [])) cfg.handle_unknown (cols.getD i []) with
        | .error (.unknownDuringFit _) => .error (.unknownDuringFit i)
        | .error e => .error e
        | .ok cats => do
          let rest ← acc
          pure (cats :: rest)) (.ok [])

/-- The spec-side description of an offending explicit drop value:
the named category is absent from the column's fitted vocabulary
(NaN matching NaN, numbers matching by value). -/
def dropValMissing (val : NVal) (cats : List NVal) : Bool :=
  match val with
  | .nan => !(cats.contains NVal.nan)
  | .num v => !(cats.contains (NVal.num v))

/-- The spec-side list of all offending (column index, value) pairs of an
explicit drop specification. -/
def specMissingDrops (vals : List NVal) (categories_ : List (List NVal)) :
    List (Nat × NVal) :=
  (vals.zip categories_).enum.filterMap (fun p =>
    if dropValMissing p.2.1 p.2.2 then some (p.1, p.2.1) else none)

/-- Resolution of one explicit drop value against one column (source
lines 334-350), given the column index alongside: a non-NaN drop value
is resolved by the array equality `cat_list == val` (IEEE, so NaN
entries never match) and a NaN drop value by scanning for a NaN category
(`is_scalar_nan`, modelled from the spec §4.2 for the absent
`afsklearn/_validation.py`); `inl` is a found index (appended to
`drop_indices`), `inr` an offending pair (appended to `missing_drops`). -/
def resolveDrop (p : Nat × (NVal × List NVal)) : Sum Nat (Nat × NVal) :=
  match p.2.1 with
  | .num v =>
    match p.2.2.findIdx? (fun c => NVal.ieeeEq c (NVal.num v)) with
    | some idx => Sum.inl idx
    | none => Sum.inr (p.1, p.2.1)
  | .nan =>
    match p.2.2.findIdx? (fun c => NVal.isNan c) with
    | some idx => Sum.inl idx
    | none => Sum.inr (p.1, p.2.1)

/-- The `missing_drops` list accumulated by the loop of
`_compute_drop_idx` (source lines 332-350): the `inr` results of the
per-column resolution, in column order. -/
def codeMissingDrops (vals : List NVal) (categories_ : List (List NVal)) :
    List (Nat × NVal) :=
  ((vals.zip categories_).enum.map resolveDrop).filterMap (fun r =>
    match r with
    | .inl _ => none
    | .inr pv => some pv)

/-- The explicit-array branch of `OneHotEncoder._compute_drop_idx`
(source lines 318-360): the length check, the per-column resolution, and
the batch error that reports every offending pair at once. -/
def computeDropIdxExplicit (vals : List NVal) (categories_ : List (List NVal)) :
    Except Err (List (Option Nat)) :=
  if vals.length ≠ categories_.length then
    .error .dropLenMismatch
  else if codeMissingDrops vals categories_ ≠ [] then
    .error (.missingDrops (codeMissingDrops vals categories_))
  else
    .ok (((vals.zip categories_).enum.map resolveDrop).map (fun r =>
      match r with
      | .inl idx => some idx
      | .inr _ => none))

/-- `OneHotEncoder._compute_drop_idx` (source lines 302-360). -/
def computeDropIdx (drop : DropParam) (categories_ : List (List NVal)) :
    Except Err (Option (List (Option Nat))) :=
  match drop with
  | .noDrop => .ok none
  | .first => .ok (some (categories_.map (fun _ => some 0)))
  | .ifBinary => .ok (some (categories_.map (fun cats =>
      if cats.length = 2 then some 0 else none)))
  | .explicitDrop vals => (computeDropIdxExplicit vals categories_).map some

/-- `OneHotEncoder.fit` (source lines 362-380): keyword validation, then
`_fit`, then `drop_idx_` computation.  The fitted state exists only when
no step raised. -/
def OneHotEncoder.fit (cfg : Config) (cols : List (List NVal)) :
    Except Err FittedState := do
  validateKeywords cfg
  let cats ← baseFit cfg cols
  let dropIdx ← computeDropIdx cfg.drop cats
  pure { categories_ := cats, drop_idx_ := dropIdx }

/-- The spec's "sorted ascending with any NaN placed last". -/
def SortedNanLast (l : List NVal) : Prop :=
  List.Pairwise (fun a b => NVal.leb a b = true) l

instance (l : List NVal) : Decidable (SortedNanLast l) :=
  inferInstanceAs (Decidable (List.Pairwise _ l))

/-- The effective output width of column `i` (the length of its
categories after deleting the dropped one, as used by
`inverse_transform`). -/
def colWidth (s : FittedState) (i : Nat) : Nat := (s.effCats i).length

/-- The flattened offset `j` at which column `i`'s sub-block starts in
`inverse_transform`. -/
def colOffset (s : FittedState) (i : Nat) : Nat :=
  ((List.range i).map (colWidth s)).sum

/-- The sub-blocks `X[:, j:j+n_categories]` of column `i`, one per row. -/
def subsAt (s : FittedState) (X : List (List Nat)) (i : Nat) :
    List (List Nat) :=
  X.map (fun row => (row.drop (colOffset s i)).take (colWidth s i))

/-- The one-hot block of width `w` with the `1` at position `c`. -/
def oneHot (w c : Nat) : List Nat :=
  (List.range w).map (fun j => if j = c then 1 else 0)

/-- The dense row described by a list of stored column indices: entry `c`
counts the occurrences of `c` (stored values being `1`). -/
def densify (n : Nat) (l : List Nat) : List Nat :=
  (List.range n).map (fun c => l.count c)

/-! ## Basic facts about the scalar type -/

theorem NVal.ieeeEq_num_iff (c : NVal) (v : Int) :
    NVal.ieeeEq c (.num v) = true ↔ c = .num v := by
  cases c <;> simp [NVal.ieeeEq]

theorem NVal.isNan_iff (c : NVal) : NVal.isNan c = true ↔ c = .nan := by
  cases c <;> simp [NVal.isNan]

/-! ## C2: the drop-index adjustment of `transform` -/

/-- C2: in `transform`, for every column with a configured drop index `d`
and every sample: a code above `d` is decremented, a code below `d` is
unchanged, and a code equal to `d` is marked invalid; a column with no
drop (the if-binary `None`, replaced by the `n_cats` sentinel) leaves
every in-range code and every validity bit unchanged. -/
theorem drop_adjust_cell_spec (nCats : Nat) (d : Option Nat) (code : Nat)
    (m : Bool) (h : code < nCats) :
    (∀ dd, d = some dd →
      (dd < code → (dropAdjustCell nCats d code m).1 = code - 1) ∧
      (code < dd → (dropAdjustCell nCats d code m).1 = code) ∧
      (code = dd → (dropAdjustCell nCats d code m).2 = false)) ∧
    (d = none → dropAdjustCell nCats d code m = (code, m)) := by
  constructor
  · rintro dd rfl
    refine ⟨fun h' => ?_, fun h' => ?_, fun h' => ?_⟩
    · simp [dropAdjustCell, h']
    · simp [dropAdjustCell, Nat.not_lt.mpr (Nat.le_of_lt h')]
    · simp [dropAdjustCell, h']
  · rintro rfl
    simp [dropAdjustCell, Nat.not_lt.mpr (Nat.le_of_lt h)]

theorem drop_adjust_cell_spec_witness :
    2 < 3 ∧ (dropAdjustCell 3 (some 1) 2 true).1 = 2 - 1 ∧
      (dropAdjustCell 3 (some 1) 1 true).2 = false ∧
      dropAdjustCell 3 none 2 true = (2, true) :=
  ⟨by decide,
   ((drop_adjust_cell_spec 3 (some 1) 2 true (by decide)).1 1 rfl).1 (by decide),
   ((drop_adjust_cell_spec 3 (some 1) 1 true (by decide)).1 1 rfl).2.2 rfl,
   (drop_adjust_cell_spec 3 none 2 true (by decide)).2 rfl⟩

/-! ## C9: `transform` and `inverse_transform` do not mutate the fitted state -/

/-- C9: for every fitted state and every input, `transform` and
`inverse_transform` return the fitted state (`categories_`, `drop_idx_`)
unchanged, both on success and on error. -/
theorem transform_inverse_preserve_state (s : FittedState)
    (handle_unknown : String) (X : List (List NVal)) (Y : List (List Nat)) :
    (OneHotEncoder.transform s handle_unknown X).2 = s ∧
    (OneHotEncoder.inverse_transform s handle_unknown Y).2 = s :=
  ⟨rfl, rfl⟩

/-! ## C6: drop combined with `handle_unknown='ignore'` fails fast -/

/-- C6: with a non-`None` drop and `handle_unknown='ignore'`, `fit`
raises the keyword-validation error before touching the data (the result
does not depend on `X`) and produces no fitted state. -/
theorem fit_drop_ignore_rejected (cfg : Config) (X : List (List NVal))
    (h1 : cfg.drop.isNone = false) (h2 : cfg.handle_unknown = "ignore") :
    OneHotEncoder.fit cfg X = .error .dropWithIgnore := by
  have hv : validateKeywords cfg = .error .dropWithIgnore := by
    unfold validateKeywords
    rw [if_neg, if_pos]
    · exact ⟨by simp [h1], by simp [h2]⟩
    · simp [h2]
  simp [OneHotEncoder.fit, hv, Bind.bind, Except.bind]

theorem fit_drop_ignore_rejected_witness :
    OneHotEncoder.fit ⟨none, .first, "ignore"⟩ [[.num 1, .num 2]] =
      .error .dropWithIgnore :=
  fit_drop_ignore_rejected _ _ rfl rfl

/-! ## C10: automatic categories never raise an unknown-category error at fit -/

theorem validateKeywords_error_cases (cfg : Config) (e : Err)
    (h : validateKeywords cfg = .error e) :
    e = .badHandleUnknown ∨ e = .dropWithIgnore := by
  unfold validateKeywords at h
  split_ifs at h <;> simp_all

theorem computeDropIdxExplicit_error_cases (vals : List NVal)
    (cats : List (List NVal)) (e : Err)
    (h : computeDropIdxExplicit vals cats = .error e) :
    e = .dropLenMismatch ∨ ∃ p, e = .missingDrops p := by
  unfold computeDropIdxExplicit at h
  split_ifs at h <;>
    first
      | (cases h; exact Or.inl rfl)
      | (cases h; exact Or.inr ⟨_, rfl⟩)
      | simp_all

theorem computeDropIdx_error_cases (d : DropParam) (cats : List (List NVal))
    (e : Err) (h : computeDropIdx d cats = .error e) :
    e = .dropLenMismatch ∨ ∃ p, e = .missingDrops p := by
  cases d with
  | noDrop => simp [computeDropIdx] at h
  | first => simp [computeDropIdx] at h
  | ifBinary => simp [computeDropIdx] at h
  | explicitDrop vals =>
    simp only [computeDropIdx] at h
    cases he : computeDropIdxExplicit vals cats with
    | ok l => rw [he] at h; simp [Except.map] at h
    | error e2 =>
      rw [he] at h
      simp only [Except.map] at h
      cases h
      exact computeDropIdxExplicit_error_cases vals cats _ he

/-- C10: with `categories='auto'`, `fit` never raises an unknown-category
error, whatever `handle_unknown` is: the check of the fitting data
against declared categories runs only when category lists are supplied. -/
theorem fit_auto_no_unknown_error (cfg : Config) (X : List (List NVal))
    (i : Nat) (h : cfg.categories = none) :
    OneHotEncoder.fit cfg X ≠ .error (.unknownDuringFit i) := by
  intro hbad
  have hb : baseFit cfg X = .ok (X.map uniqueCats) := by simp [baseFit, h]
  cases hv : validateKeywords cfg with
  | error e =>
    rcases validateKeywords_error_cases cfg e hv with rfl | rfl <;>
      simp [OneHotEncoder.fit, hv, Bind.bind, Except.bind] at hbad
  | ok u =>
    cases hd : computeDropIdx cfg.drop (X.map uniqueCats) with
    | error e =>
      simp [OneHotEncoder.fit, hv, hb, hd, Bind.bind, Except.bind,
        Functor.map, Except.map] at hbad
      rcases computeDropIdx_error_cases _ _ _ hd with h2 | ⟨p, h2⟩ <;> simp_all
    | ok dI =>
      simp [OneHotEncoder.fit, hv, hb, hd, Bind.bind, Except.bind,
        Functor.map, Except.map, Pure.pure, Except.pure] at hbad

theorem fit_auto_no_unknown_error_witness :
    OneHotEncoder.fit ⟨none, .noDrop, "error"⟩ [[.num 3, .num 1]] ≠
      .error (.unknownDuringFit 0) :=
  fit_auto_no_unknown_error _ _ 0 rfl

/-! ## C7: explicit drop specificaton errors report every offending column -/

theorem findIdx_ieeeEq_none_iff (cats : List NVal) (v : Int) :
    cats.findIdx? (fun c => NVal.ieeeEq c (NVal.num v)) = none ↔
      NVal.num v ∉ cats := by
  rw [List.findIdx?_eq_none_iff]
  constructor
  · intro h hmem
    have := h _ hmem
    simp [NVal.ieeeEq] at this
  · intro hmem x hx
    cases x with
    | num a =>
      simp only [NVal.ieeeEq, beq_eq_false_iff_ne, ne_eq]
      rintro rfl
      exact hmem hx
    | nan => simp [NVal.ieeeEq]

theorem findIdx_isNan_none_iff (cats : List NVal) :
    cats.findIdx? (fun c => NVal.isNan c) = none ↔ NVal.nan ∉ cats := by
  rw [List.findIdx?_eq_none_iff]
  constructor
  · intro h hmem
    have := h _ hmem
    simp [NVal.isNan] at this
  · intro hmem x hx
    cases x with
    | num a => simp [NVal.isNan]
    | nan => exact absurd hx hmem

/-- The code's accumulated `missing_drops` list is exactly the spec-side
list of all offending (column, value) pairs. -/
theorem codeMissingDrops_eq_spec (vals : List NVal)
    (categories_ : List (List NVal)) :
    codeMissingDrops vals categories_ = specMissingDrops vals categories_ := by
  unfold codeMissingDrops specMissingDrops
  rw [List.filterMap_map]
  apply List.filterMap_congr
  intro p _
  rcases p with ⟨i, val, cats⟩
  cases val with
  | num v =>
    simp only [Function.comp, resolveDrop, dropValMissing]
    cases hf : cats.findIdx? (fun c => NVal.ieeeEq c (NVal.num v)) with
    | some idx =>
      have hmem : NVal.num v ∈ cats := by
        by_contra hmem
        rw [← findIdx_ieeeEq_none_iff cats v] at hmem
        rw [hmem] at hf
        cases hf
      simp [hmem]
    | none =>
      have hmem : NVal.num v ∉ cats := (findIdx_ieeeEq_none_iff cats v).mp hf
      simp [hmem]
  | nan =>
    simp only [Function.comp, resolveDrop, dropValMissing]
    cases hf : cats.findIdx? (fun c => NVal.isNan c) with
    | some idx =>
      have hmem : NVal.nan ∈ cats := by
        by_contra hmem
        rw [← findIdx_isNan_none_iff cats] at hmem
        rw [hmem] at hf
        cases hf
      simp [hmem]
    | none =>
      have hmem : NVal.nan ∉ cats := (findIdx_isNan_none_iff cats).mp hf
      simp [hmem]

/-- C7: when any explicitly supplied drop value is absent from its
column's fitted vocabulary, `_compute_drop_idx` raises one error listing
every offending (column index, value) pair — not only the first — and
retains no drop indices. -/
theorem explicit_drop_reports_all_missing (vals : List NVal)
    (categories_ : List (List NVal))
    (hlen : vals.length = categories_.length)
    (hmiss : specMissingDrops vals categories_ ≠ []) :
    computeDropIdxExplicit vals categories_ =
      .error (.missingDrops (specMissingDrops vals categories_)) := by
  unfold computeDropIdxExplicit
  rw [if_neg (by simp [hlen]),
    if_pos (by rw [codeMissingDrops_eq_spec]; exact hmiss),
    codeMissingDrops_eq_spec]

theorem explicit_drop_reports_all_missing_witness :
    computeDropIdxExplicit [.num 7, .nan, .num 1]
        [[.num 1], [.num 2], [.num 1, .num 3]] =
      .error (.missingDrops [(0, .num 7), (1, .nan)]) :=
  explicit_drop_reports_all_missing [.num 7, .nan, .num 1]
    [[.num 1], [.num 2], [.num 1, .num 3]] rfl (by decide)

/-! ## C8: per-column output widths under the drop policies -/

theorem scanl_add_getLastD (l : List Nat) (b d : Nat) :
    (l.scanl (· + ·) b).getLastD d = b + l.sum := by
  induction l generalizing b d with
  | nil => simp [List.scanl_nil]
  | cons x xs ih =>
    rw [List.scanl_cons]
    simp only [List.cons_append, List.nil_append, List.getLastD_cons]
    rw [ih]
    simp only [List.sum_cons]
    omega

theorem featureIndices_getLastD (nvals : List Nat) :
    (featureIndices nvals).getLastD 0 = nvals.sum := by
  unfold featureIndices
  rw [scanl_add_getLastD]
  simp

/-- C8: under `drop='first'` every column's output width is its category
count minus one (zero for a single-category column); under
`drop='if_binary'` the width is the category count minus one exactly for
two-category columns and the full count otherwise; and the total output
column count of `transform` is the sum of the per-column widths. -/
theorem output_widths_drop_policies (cats : List (List NVal))
    (handle_unknown : String) (X : List (List NVal))
    (h1 : ∀ c ∈ cats, c ≠ []) :
    computeDropIdx .first cats = .ok (some (cats.map fun _ => some 0)) ∧
    computeDropIdx .ifBinary cats =
      .ok (some (cats.map fun c => if c.length = 2 then some 0 else none)) ∧
    nValues cats (some (cats.map fun _ => some 0)) =
      cats.map (fun c => c.length - 1) ∧
    nValues cats (some (cats.map fun c => if c.length = 2 then some 0 else none)) =
      cats.map (fun c => if c.length = 2 then c.length - 1 else c.length) ∧
    (∀ dI csr, (OneHotEncoder.transform ⟨cats, dI⟩ handle_unknown X).1 = .ok csr →
      csr.ncols = (nValues cats dI).sum) := by
  refine ⟨rfl, rfl, ?_, ?_, ?_⟩
  · simp only [nValues]
    rw [List.zipWith_map_right, List.zipWith_same]
  · simp only [nValues]
    rw [List.zipWith_map_right, List.zipWith_same]
    apply List.map_congr_left
    intro c _
    by_cases hc : c.length = 2 <;> simp [hc]
  · intro dI csr hok
    simp only [OneHotEncoder.transform, Bind.bind] at hok
    cases ht : baseTransform cats handle_unknown X with
    | error e => rw [ht] at hok; simp [Except.bind] at hok
    | ok tm =>
      rw [ht] at hok
      simp only [Except.bind, Pure.pure, Except.pure, Except.ok.injEq] at hok
      rw [← hok]
      simp only [assembleCSR]
      exact featureIndices_getLastD _

theorem output_widths_drop_policies_witness :
    nValues [[NVal.num 1], [NVal.num 1, NVal.num 2], [NVal.num 1, NVal.num 2, NVal.num 3]]
        (some (([[NVal.num 1], [NVal.num 1, NVal.num 2], [NVal.num 1, NVal.num 2, NVal.num 3]] :
          List (List NVal)).map fun _ => some 0)) = [0, 1, 2] := by
  rw [(output_widths_drop_policies
    [[NVal.num 1], [NVal.num 1, NVal.num 2], [NVal.num 1, NVal.num 2, NVal.num 3]] "error" []
    (by decide)).2.2.1]
  rfl

/-! ## C5: the numeric-category sort check -/

theorem map_num_filterMap_of_not_mem (l : List NVal) (h : NVal.nan ∉ l) :
    (l.filterMap NVal.numPart).map NVal.num = l := by
  induction l with
  | nil => rfl
  | cons x xs ih =>
    cases x with
    | num a =>
      simp only [List.filterMap_cons, NVal.numPart, List.map_cons]
      rw [ih (fun hm => h (List.mem_cons_of_mem _ hm))]
    | nan => exact absurd (List.mem_cons_self _ _) h

theorem filterMap_num_length (l : List NVal) :
    (l.filterMap NVal.numPart).length + l.count NVal.nan = l.length := by
  induction l with
  | nil => rfl
  | cons x xs ih =>
    cases x with
    | num a =>
      rw [List.count_cons_of_ne (by simp)]
      simp only [List.filterMap_cons, NVal.numPart, List.length_cons]
      omega
    | nan =>
      rw [List.count_cons_self]
      simp only [List.filterMap_cons, NVal.numPart, List.length_cons]
      omega

theorem zip_ieeeNe_eq_false_iff (xs ys : List NVal) (hx : NVal.nan ∉ xs)
    (hlen : xs.length = ys.length) :
    ((List.zipWith NVal.ieeeNe xs ys).any id = false) ↔ xs = ys := by
  induction xs generalizing ys with
  | nil =>
    cases ys with
    | nil => simp
    | cons y ys => simp at hlen
  | cons x xs ih =>
    cases ys with
    | nil => simp at hlen
    | cons y ys =>
      simp only [List.zipWith_cons_cons, List.any_cons, Bool.or_eq_false_iff, id]
      have hx' : NVal.nan ∉ xs := fun hm => hx (List.mem_cons_of_mem _ hm)
      have hxx : x ≠ NVal.nan := fun he => hx (he ▸ List.mem_cons_self _ _)
      rw [ih ys hx' (by simpa using hlen)]
      constructor
      · rintro ⟨h1, rfl⟩
        cases x with
        | num a =>
          cases y with
          | num b =>
            simp [NVal.ieeeNe, NVal.ieeeEq] at h1
            simp [h1]
          | nan => simp [NVal.ieeeNe, NVal.ieeeEq] at h1
        | nan => exact absurd rfl hxx
      · rintro h
        injection h with h1 h2
        subst h1; subst h2
        refine ⟨?_, rfl⟩
        cases x with
        | num a => simp [NVal.ieeeNe, NVal.ieeeEq]
        | nan => exact absurd rfl hxx

theorem zip_ieeeNe_any_of_nan (xs ys : List NVal) (hmem : NVal.nan ∈ xs)
    (hlen : xs.length ≤ ys.length) :
    (List.zipWith NVal.ieeeNe xs ys).any id = true := by
  induction xs generalizing ys with
  | nil => simp at hmem
  | cons x xs ih =>
    cases ys with
    | nil => simp at hlen
    | cons y ys =>
      simp only [List.zipWith_cons_cons, List.any_cons, id, Bool.or_eq_true]
      rcases List.mem_cons.mp hmem with rfl | hmem2
      · left; cases y <;> simp [NVal.ieeeNe, NVal.ieeeEq]
      · right; exact ih ys hmem2 (by simpa using hlen)

theorem sortedNanLast_map_num (l : List Int) :
    SortedNanLast (l.map NVal.num) ↔ l.Sorted (· ≤ ·) := by
  unfold SortedNanLast
  rw [List.pairwise_map]
  constructor <;> intro h <;> refine h.imp ?_ <;> intro a b hab <;>
    simpa [NVal.leb] using hab

theorem sortedNanLast_append_nans (l : List Int) (c : Nat)
    (hs : l.Sorted (· ≤ ·)) :
    SortedNanLast (l.map NVal.num ++ List.replicate c NVal.nan) := by
  unfold SortedNanLast
  rw [List.pairwise_append]
  refine ⟨(sortedNanLast_map_num l).mpr hs, ?_, ?_⟩
  · rw [List.pairwise_replicate]
    right; rfl
  · intro a _ b hb
    rw [List.eq_of_mem_replicate hb]
    cases a <;> rfl

/-- Every list that is sorted with NaN last splits into its sorted
numbers followed by its NaNs. -/
theorem sortedNanLast_decomp (l : List NVal) (h : SortedNanLast l) :
    l = (l.filterMap NVal.numPart).map NVal.num ++
        List.replicate (l.count NVal.nan) NVal.nan ∧
      (l.filterMap NVal.numPart).Sorted (· ≤ ·) := by
  induction l with
  | nil => exact ⟨rfl, List.sorted_nil⟩
  | cons x xs ih =>
    rw [SortedNanLast, List.pairwise_cons] at h
    obtain ⟨hx, hxs⟩ := h
    obtain ⟨hdec, hsort⟩ := ih hxs
    cases x with
    | num a =>
      constructor
      · rw [List.count_cons_of_ne (by simp)]
        simp only [List.filterMap_cons, NVal.numPart, List.map_cons,
          List.cons_append]
        exact congrArg (List.cons (NVal.num a)) hdec
      · simp only [List.filterMap_cons, NVal.numPart]
        rw [List.sorted_cons]
        refine ⟨?_, hsort⟩
        intro b hb
        rcases List.mem_filterMap.mp hb with ⟨y, hy, hyb⟩
        have := hx y hy
        cases y with
        | num a2 =>
          simp only [NVal.numPart, Option.some.injEq] at hyb
          subst hyb
          simpa [NVal.leb] using this
        | nan => simp [NVal.numPart] at hyb
    | nan =>
      have hall : ∀ y ∈ xs, y = NVal.nan := by
        intro y hy
        have := hx y hy
        cases y with
        | num b => simp [NVal.leb] at this
        | nan => rfl
      have hrep : xs = List.replicate xs.length NVal.nan :=
        List.eq_replicate.mpr ⟨rfl, hall⟩
      have hfm : xs.filterMap NVal.numPart = [] := by
        rw [List.filterMap_eq_nil]
        intro y hy
        rw [hall y hy]
        rfl
      constructor
      · have hcount : List.count NVal.nan xs = xs.length := by
          conv => left; rw [hrep]
          rw [List.count_replicate]
          simp
        rw [List.count_cons_self]
        simp only [List.filterMap_cons, NVal.numPart, hfm, List.map_nil,
          List.nil_append, hcount]
        rw [List.replicate_succ]
        exact congrArg (List.cons NVal.nan) hrep
      · simp [List.filterMap_cons, NVal.numPart, hfm]

theorem getLastD_map_num_not_nan (l : List Int) (h : l ≠ []) :
    ((l.map NVal.num).getLastD NVal.nan).isNan = false := by
  rw [List.getLastD_eq_getLast?, List.getLast?_map]
  cases hl : l.getLast? with
  | none => exact absurd (List.getLast?_eq_none.mp hl) h
  | some y => rfl

/-- `unsortedCheckFails` without the intermediate bindings: the second
disjunct of the source's condition is identically false. -/
theorem unsortedCheckFails_eq (cats : List NVal) :
    unsortedCheckFails cats =
      (if ((afSort cats).getLastD NVal.nan).isNan then
        (List.zipWith NVal.ieeeNe (afSort cats).dropLast cats.dropLast).any id
      else
        (List.zipWith NVal.ieeeNe (afSort cats) cats).any id) := by
  unfold unsortedCheckFails
  cases hb : ((afSort cats).getLastD NVal.nan).isNan <;>
    rw [List.getLastD_eq_getLast?] at hb <;>
    simp [hb, List.getLastD_eq_getLast?]

theorem nan_not_mem_map_num (l : List Int) : NVal.nan ∉ l.map NVal.num := by
  intro hm
  rcases List.mem_map.mp hm with ⟨a, _, ha⟩
  cases ha

/-- The key characterization of the source's sort check: it fails exactly
when the categories are not sorted-with-NaN-last, or when they contain
two or more NaNs (elementwise IEEE `!=` reports `NaN != NaN` as true, so
any NaN surviving in the compared prefix trips the check). -/
theorem unsortedCheckFails_iff (cats : List NVal) (h : cats ≠ []) :
    unsortedCheckFails cats = true ↔
      (¬ SortedNanLast cats ∨ 2 ≤ cats.count NVal.nan) := by
  have hlen := filterMap_num_length cats
  have hnslen : ((cats.filterMap NVal.numPart).insertionSort (· ≤ ·)).length =
      (cats.filterMap NVal.numPart).length := List.length_insertionSort _ _
  rw [unsortedCheckFails_eq]
  rcases hcount : cats.count NVal.nan with _ | c
  · -- no NaN at all
    have hnn : NVal.nan ∉ cats := List.count_eq_zero.mp hcount
    have hcats : (cats.filterMap NVal.numPart).map NVal.num = cats :=
      map_num_filterMap_of_not_mem cats hnn
    have hsort : afSort cats =
        ((cats.filterMap NVal.numPart).insertionSort (· ≤ ·)).map NVal.num := by
      rw [afSort, hcount]
      simp
    have hnsne : (cats.filterMap NVal.numPart).insertionSort (· ≤ ·) ≠ [] := by
      intro hne
      apply h
      have h0 : (cats.filterMap NVal.numPart).length = 0 := by
        rw [← hnslen, hne]
        rfl
      rw [← hcats, List.length_eq_zero.mp h0]
      rfl
    rw [hsort, getLastD_map_num_not_nan _ hnsne]
    simp only [Bool.false_eq_true, if_false, hcount]
    have hiff := zip_ieeeNe_eq_false_iff
      (((cats.filterMap NVal.numPart).insertionSort (· ≤ ·)).map NVal.num) cats
      (nan_not_mem_map_num _)
      (by rw [List.length_map, hnslen]; omega)
    constructor
    · intro hany
      left
      intro hS
      have hSn : (cats.filterMap NVal.numPart).Sorted (· ≤ ·) := by
        have := (sortedNanLast_map_num (cats.filterMap NVal.numPart)).mp
          (by rw [hcats]; exact hS)
        exact this
      have : ((cats.filterMap NVal.numPart).insertionSort (· ≤ ·)).map NVal.num
          = cats := by
        rw [hSn.insertionSort_eq, hcats]
      rw [hiff.mpr this] at hany
      cases hany
    · intro hor
      rcases hor with hS | h2
      · by_contra hany
        have hfe : ((List.zipWith NVal.ieeeNe
            (((cats.filterMap NVal.numPart).insertionSort (· ≤ ·)).map NVal.num)
            cats).any id) = false := by
          cases hb : ((List.zipWith NVal.ieeeNe
              (((cats.filterMap NVal.numPart).insertionSort (· ≤ ·)).map NVal.num)
              cats).any id) with
          | false => rfl
          | true => exact absurd hb hany
        have heq := hiff.mp hfe
        apply hS
        rw [← hcats]
        apply (sortedNanLast_map_num _).mpr
        have hinj : Function.Injective NVal.num := fun a b hab => by
          cases hab; rfl
        have hns_eq : (cats.filterMap NVal.numPart).insertionSort (· ≤ ·) =
            cats.filterMap NVal.numPart := by
          apply List.map_injective_iff.mpr hinj
          rw [heq, hcats]
        rw [← hns_eq]
        exact List.sorted_insertionSort _ _
      · omega
  · rcases c with _ | c2
    · -- exactly one NaN
      have hsort : afSort cats =
          ((cats.filterMap NVal.numPart).insertionSort (· ≤ ·)).map NVal.num ++
            [NVal.nan] := by
        rw [afSort, hcount]
        rfl
      rw [hsort, List.getLastD_concat]
      simp only [NVal.isNan, if_true, List.dropLast_concat, hcount]
      have hiff := zip_ieeeNe_eq_false_iff
        (((cats.filterMap NVal.numPart).insertionSort (· ≤ ·)).map NVal.num)
        cats.dropLast (nan_not_mem_map_num _)
        (by rw [List.length_map, hnslen, List.length_dropLast]; omega)
      have hkey : (((cats.filterMap NVal.numPart).insertionSort (· ≤ ·)).map
          NVal.num = cats.dropLast) ↔ SortedNanLast cats := by
        constructor
        · intro hEq
          have hlast : cats.getLast h = NVal.nan := by
            have hsplit := List.dropLast_append_getLast h
            have hcnt : cats.count NVal.nan =
                cats.dropLast.count NVal.nan + [cats.getLast h].count NVal.nan := by
              rw [← List.count_append, hsplit]
            have hdl0 : cats.dropLast.count NVal.nan = 0 := by
              rw [← hEq]
              exact List.count_eq_zero.mpr (nan_not_mem_map_num _)
            rw [hcount, hdl0] at hcnt
            cases hgl : cats.getLast h with
            | num a => rw [hgl] at hcnt; simp [List.count_cons] at hcnt
            | nan => rfl
          have hsplit := List.dropLast_append_getLast h
          rw [hlast] at hsplit
          rw [← hsplit, ← hEq]
          have : ([NVal.nan] : List NVal) = List.replicate 1 NVal.nan := rfl
          rw [this]
          exact sortedNanLast_append_nans _ 1 (List.sorted_insertionSort _ _)
        · intro hS
          obtain ⟨hdec, hsorted⟩ := sortedNanLast_decomp cats hS
          rw [hsorted.insertionSort_eq]
          conv => right; rw [hdec]
          rw [hcount]
          rw [show List.replicate 1 NVal.nan = [NVal.nan] from rfl,
            List.dropLast_concat]
      constructor
      · intro hany
        left
        intro hS
        rw [hiff.mpr (hkey.mpr hS)] at hany
        cases hany
      · intro hor
        rcases hor with hS | h2
        · by_contra hany
          have hfe : ((List.zipWith NVal.ieeeNe
              (((cats.filterMap NVal.numPart).insertionSort (· ≤ ·)).map NVal.num)
              cats.dropLast).any id) = false := by
            cases hb : ((List.zipWith NVal.ieeeNe
                (((cats.filterMap NVal.numPart).insertionSort (· ≤ ·)).map NVal.num)
                cats.dropLast).any id) with
            | false => rfl
            | true => exact absurd hb hany
          exact hS (hkey.mp (hiff.mp hfe))
        · omega
    · -- two or more NaNs: the check always fails
      have hsort : afSort cats =
          (((cats.filterMap NVal.numPart).insertionSort (· ≤ ·)).map NVal.num ++
            List.replicate (c2 + 1) NVal.nan) ++ [NVal.nan] := by
        rw [afSort, hcount, List.replicate_succ' (c2 + 1), List.append_assoc]
      rw [hsort, List.getLastD_concat]
      simp only [NVal.isNan, if_true, List.dropLast_concat, hcount]
      have hmem : NVal.nan ∈
          ((cats.filterMap NVal.numPart).insertionSort (· ≤ ·)).map NVal.num ++
            List.replicate (c2 + 1) NVal.nan :=
        List.mem_append_right _ (List.mem_replicate.mpr ⟨Nat.succ_ne_zero _, rfl⟩)
      have hany := zip_ieeeNe_any_of_nan _ cats.dropLast hmem
        (by
          rw [List.length_append, List.length_map, hnslen,
            List.length_replicate, List.length_dropLast]
          omega)
      rw [hany]
      simp

/-- For a single numeric column with supplied categories, `fit` raises
the "unsorted categories" error exactly when the source's sort check
trips, whatever `handle_unknown ∈ {error, ignore}` is. -/
theorem fit_single_supplied_unsorted_iff (cats col : List NVal) (hu : String)
    (hhu : hu = "error" ∨ hu = "ignore") :
    (OneHotEncoder.fit ⟨some [cats], .noDrop, hu⟩ [col] =
      .error .unsortedCategories) ↔ unsortedCheckFails cats = true := by
  have hv : validateKeywords ⟨some [cats], .noDrop, hu⟩ = .ok () := by
    rcases hhu with rfl | rfl <;> rfl
  cases hfb : unsortedCheckFails cats with
  | true =>
    simp only [iff_true]
    have h1 : fitOneColumn (some cats) hu col = .error .unsortedCategories := by
      simp [fitOneColumn, hfb]
    simp [OneHotEncoder.fit, hv, Bind.bind, Except.bind, baseFit,
      List.range_succ, h1]
  | false =>
    simp only [Bool.false_eq_true, iff_false]
    by_cases hdd : (hu == "error") = true ∧ fitDiff col cats ≠ []
    · have h1 : fitOneColumn (some cats) hu col =
          .error (.unknownDuringFit 0) := by
        simp [fitOneColumn, hfb, hdd]
      intro hfit
      simp [OneHotEncoder.fit, hv, Bind.bind, Except.bind, baseFit,
        List.range_succ, h1] at hfit
    · have h1 : fitOneColumn (some cats) hu col = .ok cats := by
        simp only [fitOneColumn, hfb, Bool.false_eq_true, if_false]
        rw [if_neg hdd]
      intro hfit
      simp [OneHotEncoder.fit, hv, Bind.bind, Except.bind, baseFit,
        List.range_succ, h1, computeDropIdx, Functor.map, Except.map,
        Pure.pure, Except.pure] at hfit

/-- C5 counterexample: `[1.0, NaN, NaN]` is sorted ascending with every
NaN last, yet `fit` raises the "unsorted categories" error for it
(elementwise IEEE `NaN != NaN` trips the check). -/
theorem sort_check_counterexample :
    SortedNanLast [NVal.num 1, NVal.nan, NVal.nan] ∧
      OneHotEncoder.fit
          ⟨some [[NVal.num 1, NVal.nan, NVal.nan]], .noDrop, "error"⟩
          [[NVal.num 1]] =
        .error .unsortedCategories :=
  ⟨by decide, by rfl⟩

/-- C5 (amended): for a numeric column with explicitly supplied, nonempty
categories, `fit` raises the "unsorted categories" `ValidationError` iff
the supplied list is not sorted ascending with NaN last **or** it
contains two or more NaNs; in particular a correctly sorted list with at
most one NaN never raises it. -/
theorem fit_unsorted_iff_amended (cats col : List NVal) (hu : String)
    (hne : cats ≠ []) (hhu : hu = "error" ∨ hu = "ignore") :
    (OneHotEncoder.fit ⟨some [cats], .noDrop, hu⟩ [col] =
      .error .unsortedCategories) ↔
      (¬ SortedNanLast cats ∨ 2 ≤ cats.count NVal.nan) := by
  rw [fit_single_supplied_unsorted_iff cats col hu hhu]
  exact unsortedCheckFails_iff cats hne

theorem fit_unsorted_iff_amended_witness :
    OneHotEncoder.fit ⟨some [[NVal.num 2, NVal.num 1]], .noDrop, "error"⟩
        [[NVal.num 1]] = .error .unsortedCategories :=
  (fit_unsorted_iff_amended [NVal.num 2, NVal.num 1] [NVal.num 1] "error"
    (by decide) (Or.inl rfl)).mpr (Or.inl (by decide))

/-! ## C3: all-zero sub-blocks in `inverse_transform` -/

theorem getD_map_of_lt {α β : Type} (f : α → β) (l : List α) (r : Nat)
    (d : β) (d2 : α) (h : r < l.length) :
    (l.map f).getD r d = f (l.getD r d2) := by
  rw [List.getD_eq_getElem _ _ (by simpa using h),
    List.getD_eq_getElem _ _ h, List.getElem_map]

theorem getD_zipWith_of_lt {α β γ : Type} (f : α → β → γ) (l1 : List α)
    (l2 : List β) (r : Nat) (d : γ) (d1 : α) (d2 : β)
    (h1 : r < l1.length) (h2 : r < l2.length) :
    (List.zipWith f l1 l2).getD r d = f (l1.getD r d1) (l2.getD r d2) := by
  rw [List.getD_eq_getElem _ _ (by rw [List.length_zipWith]; omega),
    List.getD_eq_getElem _ _ h1, List.getD_eq_getElem _ _ h2,
    List.getElem_zipWith]

theorem getD_range_map {β : Type} (f : Nat → β) (n r : Nat) (d : β)
    (h : r < n) :
    ((List.range n).map f).getD r d = f r := by
  rw [getD_map_of_lt f _ r d 0 (by simpa using h)]
  congr 1
  rw [List.getD_eq_getElem _ _ (by simpa using h), List.getElem_range]

theorem getD_replicate_of_lt {α : Type} (a d : α) (n r : Nat) (h : r < n) :
    (List.replicate n a).getD r d = a := by
  rw [List.getD_eq_getElem _ _ (by simpa using h), List.getElem_replicate]

theorem colOffset_succ (s : FittedState) (a : Nat) :
    colOffset s (a + 1) = colOffset s a + colWidth s a := by
  unfold colOffset
  rw [List.range_succ, List.map_append, List.sum_append]
  simp

theorem invColumn_w0 (s : FittedState) (hu : String) (i : Nat)
    (subs : List (List Nat)) (h : (s.effCats i).length = 0) :
    invColumn s hu i subs = .ok (List.replicate subs.length
      (some ((s.categories_.getD i []).getD ((s.dropAt i).getD 0) (NVal.num 0)))) := by
  simp only [invColumn]
  rw [if_pos h]

theorem invColumn_ignore (s : FittedState) (hu : String) (i : Nat)
    (subs : List (List Nat)) (h : ¬(s.effCats i).length = 0)
    (hig : (hu == "ignore") = true) :
    invColumn s hu i subs = .ok (List.zipWith
      (fun sub b => if sub.sum = 0 then none else some b) subs
      (subs.map (fun sub => (s.effCats i).getD (argmaxFirst sub) (NVal.num 0)))) := by
  simp only [invColumn]
  rw [if_neg h, if_pos hig]

theorem invColumn_err (s : FittedState) (hu : String) (i : Nat)
    (subs : List (List Nat)) (h : ¬(s.effCats i).length = 0)
    (hig : (hu == "ignore") = false)
    (hany : subs.any (fun sub => sub.sum = 0) = true)
    (hnone : s.drop_idx_ = none) :
    invColumn s hu i subs = .error .inversionAllZero := by
  simp only [invColumn]
  rw [if_neg h, if_neg (by rw [hig]; exact Bool.false_ne_true),
    if_pos hany, if_pos (by rw [hnone]; rfl)]

theorem invColumn_dropped (s : FittedState) (hu : String) (i d : Nat)
    (subs : List (List Nat)) (h : ¬(s.effCats i).length = 0)
    (hig : (hu == "ignore") = false)
    (hany : subs.any (fun sub => sub.sum = 0) = true)
    (hds : s.dropAt i = some d) :
    invColumn s hu i subs = .ok (List.zipWith
      (fun sub b => if sub.sum = 0 then
          some ((s.categories_.getD i []).getD d (NVal.num 0))
        else some b) subs
      (subs.map (fun sub => (s.effCats i).getD (argmaxFirst sub) (NVal.num 0)))) := by
  have hsome : s.drop_idx_.isNone = false := by
    cases hdi : s.drop_idx_ with
    | none =>
      rw [show s.dropAt i = none from by unfold FittedState.dropAt; rw [hdi]]
        at hds
      cases hds
    | some l => rfl
  simp only [invColumn]
  rw [if_neg h, if_neg (by rw [hig]; exact Bool.false_ne_true),
    if_pos hany, if_neg (by rw [hsome]; exact Bool.false_ne_true), hds]

theorem invColumn_broadcast (s : FittedState) (hu : String) (i : Nat)
    (subs : List (List Nat)) (h : ¬(s.effCats i).length = 0)
    (hig : (hu == "ignore") = false)
    (hany : subs.any (fun sub => sub.sum = 0) = true)
    (hsome : s.drop_idx_.isNone = false)
    (hda : s.dropAt i = none) :
    invColumn s hu i subs = .error .broadcastMismatch := by
  simp only [invColumn]
  rw [if_neg h, if_neg (by rw [hig]; exact Bool.false_ne_true),
    if_pos hany, if_neg (by rw [hsome]; exact Bool.false_ne_true), hda]

theorem invColumn_noZero (s : FittedState) (hu : String) (i : Nat)
    (subs : List (List Nat)) (h : ¬(s.effCats i).length = 0)
    (hig : (hu == "ignore") = false)
    (hany : subs.any (fun sub => sub.sum = 0) = false) :
    invColumn s hu i subs = .ok
      ((subs.map (fun sub => (s.effCats i).getD (argmaxFirst sub) (NVal.num 0))).map
        some) := by
  simp only [invColumn]
  rw [if_neg h, if_neg (by rw [hig]; exact Bool.false_ne_true),
    if_neg (by rw [hany]; exact Bool.false_ne_true)]

theorem invColumn_error_noDrop (s : FittedState) (hu : String) (i : Nat)
    (subs : List (List Nat)) (e : Err) (hnone : s.drop_idx_ = none)
    (h : invColumn s hu i subs = .error e) : e = .inversionAllZero := by
  simp only [invColumn] at h
  split_ifs at h <;> simp_all [hnone]

theorem invColumn_error_dropList (s : FittedState) (hu : String) (i : Nat)
    (subs : List (List Nat)) (e : Err) (l : List (Option Nat))
    (hl : s.drop_idx_ = some l)
    (h : invColumn s hu i subs = .error e) : e = .broadcastMismatch := by
  simp only [invColumn] at h
  split_ifs at h with h1 h2 h3 h4
  · rw [hl] at h4
    simp at h4
  · cases hda : s.dropAt i with
    | none =>
      simp only [hda, Except.error.injEq] at h
      exact h.symm
    | some d =>
      simp only [hda] at h
      cases h

/-- If every column inverts without error, the column loop returns one
column per index, each described by `invColumn` at its own offset. -/
theorem invGo_ok_all (s : FittedState) (hu : String) (X : List (List Nat))
    (hok : ∀ i2, ∃ col, invColumn s hu i2 (subsAt s X i2) = .ok col) :
    ∀ m a, ∃ cols, invGo s hu X (List.range' a m) (colOffset s a) = .ok cols ∧
      cols.length = m ∧
      ∀ q, q < m → invColumn s hu (a + q) (subsAt s X (a + q)) =
        .ok (cols.getD q []) := by
  intro m
  induction m with
  | zero =>
    intro a
    exact ⟨[], rfl, rfl, fun q hq => absurd hq (by omega)⟩
  | succ m2 ih =>
    intro a
    obtain ⟨col, hcol⟩ := hok a
    obtain ⟨cols, hgo, hlen, hq⟩ := ih (a + 1)
    refine ⟨col :: cols, ?_, by simp [hlen], ?_⟩
    · rw [List.range'_succ]
      simp only [invGo]
      rw [show (X.map fun row =>
          (row.drop (colOffset s a)).take (s.effCats a).length) =
          subsAt s X a from rfl]
      rw [hcol]
      simp only [Bind.bind, Except.bind]
      rw [show colOffset s a + (s.effCats a).length = colOffset s (a + 1) from
        (colOffset_succ s a).symm]
      rw [hgo]
      rfl
    · intro q hq2
      cases q with
      | zero => simpa using hcol
      | succ q2 =>
        have := hq q2 (by omega)
        rw [show a + (q2 + 1) = (a + 1) + q2 from by omega]
        exact this

/-- With `drop_idx_ = None`, `handle_unknown ≠ 'ignore'` and some row
whose sub-block for a processed column is all zeros, the column loop
raises the inversion error. -/
theorem invGo_err_of_zero (s : FittedState) (hu : String)
    (X : List (List Nat)) (r i : Nat)
    (hig : (hu == "ignore") = false) (hdrop : s.drop_idx_ = none)
    (hr : r < X.length)
    (hz : (((X.getD r []).drop (colOffset s i)).take (colWidth s i)).sum = 0)
    (hw : ¬colWidth s i = 0) :
    ∀ m a, a ≤ i → i < a + m →
      invGo s hu X (List.range' a m) (colOffset s a) =
        .error .inversionAllZero := by
  intro m
  induction m with
  | zero => intro a h1 h2; omega
  | succ m2 ih =>
    intro a h1 h2
    have hanyi : (subsAt s X i).any (fun sub => sub.sum = 0) = true := by
      rw [List.any_eq_true]
      refine ⟨((X.getD r []).drop (colOffset s i)).take (colWidth s i), ?_, ?_⟩
      · unfold subsAt
        rw [List.getD_eq_getElem _ _ hr]
        exact List.mem_map_of_mem _ (List.getElem_mem hr)
      · exact decide_eq_true hz
    rw [List.range'_succ]
    simp only [invGo]
    rw [show (X.map fun row =>
        (row.drop (colOffset s a)).take (s.effCats a).length) =
        subsAt s X a from rfl]
    by_cases hai : a = i
    · subst hai
      rw [invColumn_err s hu a (subsAt s X a) hw hig hanyi hdrop]
      rfl
    · cases hcol : invColumn s hu a (subsAt s X a) with
      | error e =>
        have he := invColumn_error_noDrop s hu a (subsAt s X a) e hdrop hcol
        subst he
        rfl
      | ok col =>
        simp only [Bind.bind, Except.bind]
        rw [show colOffset s a + (s.effCats a).length = colOffset s (a + 1) from
          (colOffset_succ s a).symm]
        rw [ih (a + 1) (by omega) (by omega)]

/-- With a configured drop list, `handle_unknown ≠ 'ignore'` and some row
whose sub-block for a processed column with a `None` drop entry is all
zeros, the column loop crashes with the broadcast error of line 541. -/
theorem invGo_err_broadcast (s : FittedState) (hu : String)
    (X : List (List Nat)) (r i : Nat) (l : List (Option Nat))
    (hig : (hu == "ignore") = false) (hl : s.drop_idx_ = some l)
    (hentry : l.getD i none = none) (hr : r < X.length)
    (hz : (((X.getD r []).drop (colOffset s i)).take (colWidth s i)).sum = 0)
    (hw : ¬colWidth s i = 0) :
    ∀ m a, a ≤ i → i < a + m →
      invGo s hu X (List.range' a m) (colOffset s a) =
        .error .broadcastMismatch := by
  have hsome : s.drop_idx_.isNone = false := by rw [hl]; rfl
  have hdai : s.dropAt i = none := by
    unfold FittedState.dropAt
    rw [hl]
    exact hentry
  intro m
  induction m with
  | zero => intro a h1 h2; omega
  | succ m2 ih =>
    intro a h1 h2
    have hanyi : (subsAt s X i).any (fun sub => sub.sum = 0) = true := by
      rw [List.any_eq_true]
      refine ⟨((X.getD r []).drop (colOffset s i)).take (colWidth s i), ?_, ?_⟩
      · unfold subsAt
        rw [List.getD_eq_getElem _ _ hr]
        exact List.mem_map_of_mem _ (List.getElem_mem hr)
      · exact decide_eq_true hz
    rw [List.range'_succ]
    simp only [invGo]
    rw [show (X.map fun row =>
        (row.drop (colOffset s a)).take (s.effCats a).length) =
        subsAt s X a from rfl]
    by_cases hai : a = i
    · subst hai
      rw [invColumn_broadcast s hu a (subsAt s X a) hw hig hanyi hsome hdai]
      rfl
    · cases hcol : invColumn s hu a (subsAt s X a) with
      | error e =>
        have he := invColumn_error_dropList s hu a (subsAt s X a) e l hl hcol
        subst he
        rfl
      | ok col =>
        simp only [Bind.bind, Except.bind]
        rw [show colOffset s a + (s.effCats a).length = colOffset s (a + 1) from
          (colOffset_succ s a).symm]
        rw [ih (a + 1) (by omega) (by omega)]

theorem inverse_transform_fst (s : FittedState) (hu : String)
    (X : List (List Nat))
    (hshape : ∀ row ∈ X, row.length = nTransformed s) :
    (OneHotEncoder.inverse_transform s hu X).1 =
      (invGo s hu X (List.range s.categories_.length) 0).map
        (colsToRows X.length) := by
  simp only [OneHotEncoder.inverse_transform]
  rw [if_neg]
  intro hbad
  rw [List.any_eq_true] at hbad
  obtain ⟨row, hrow, hne⟩ := hbad
  exact absurd (hshape row hrow) (by simpa using hne)

/-- C3 (amended): for a fitted encoder and a row whose (non-degenerate)
sub-block for column `i` is all zeros, `inverse_transform` produces:
under `handle_unknown='ignore'` the non-category `None` sentinel in that
cell (the output cell type holds the sentinel alongside category
values); under `handle_unknown='error'` with a drop *index* configured
for that column — provided no column whose drop entry is `None` has an
all-zero sub-block — the dropped category's value; under
`handle_unknown='error'` with `drop_idx_ = None`, the inversion error
and no output; and under `handle_unknown='error'` with a drop list whose
entry for the all-zero column is `None` (the if-binary no-drop
sentinel), the broadcast crash of line 541 and no output — not a
substituted value, refuting the original claim's second case in that
configuration. -/
theorem inverse_all_zero_block (s : FittedState) (hu : String)
    (X : List (List Nat)) (r i : Nat)
    (hshape : ∀ row ∈ X, row.length = nTransformed s)
    (hr : r < X.length) (hi : i < s.categories_.length)
    (hz : (((X.getD r []).drop (colOffset s i)).take (colWidth s i)).sum = 0)
    (hw : ¬colWidth s i = 0) :
    (hu = "ignore" →
      ∃ M, (OneHotEncoder.inverse_transform s hu X).1 = .ok M ∧
        (M.getD r []).getD i none = none) ∧
    (hu = "error" → ∀ l d, s.drop_idx_ = some l → l.getD i none = some d →
      (∀ i2, i2 < s.categories_.length → l.getD i2 none = none →
        (subsAt s X i2).any (fun sub => sub.sum = 0) = false) →
      ∃ M, (OneHotEncoder.inverse_transform s hu X).1 = .ok M ∧
        (M.getD r []).getD i none =
          some ((s.categories_.getD i []).getD d (NVal.num 0))) ∧
    (hu = "error" → s.drop_idx_ = none →
      (OneHotEncoder.inverse_transform s hu X).1 = .error .inversionAllZero) ∧
    (hu = "error" → ∀ l, s.drop_idx_ = some l → l.getD i none = none →
      (OneHotEncoder.inverse_transform s hu X).1 =
        .error .broadcastMismatch) := by
  have hsubs_len : (subsAt s X i).length = X.length := by
    unfold subsAt
    exact List.length_map _ _
  have hsub_r : (subsAt s X i).getD r [] =
      ((X.getD r []).drop (colOffset s i)).take (colWidth s i) := by
    unfold subsAt
    exact getD_map_of_lt _ X r [] [] hr
  refine ⟨?_, ?_, ?_, ?_⟩
  · rintro rfl
    have hok : ∀ i2, ∃ col,
        invColumn s "ignore" i2 (subsAt s X i2) = .ok col := by
      intro i2
      by_cases h0 : (s.effCats i2).length = 0
      · exact ⟨_, invColumn_w0 s "ignore" i2 (subsAt s X i2) h0⟩
      · exact ⟨_, invColumn_ignore s "ignore" i2 (subsAt s X i2) h0 rfl⟩
    obtain ⟨cols, hgo, hlen, hq⟩ :=
      invGo_ok_all s "ignore" X hok s.categories_.length 0
    have hgo2 : invGo s "ignore" X (List.range' 0 s.categories_.length) 0 =
        .ok cols := hgo
    refine ⟨colsToRows X.length cols, ?_, ?_⟩
    · rw [inverse_transform_fst s "ignore" X hshape, List.range_eq_range',
        hgo2]
      rfl
    · have hcoli := hq i hi
      rw [Nat.zero_add] at hcoli
      rw [invColumn_ignore s "ignore" i (subsAt s X i) hw rfl] at hcoli
      injection hcoli with hZ
      have step1 : (colsToRows X.length cols).getD r [] =
          cols.map (fun c => c.getD r none) := by
        unfold colsToRows
        exact getD_range_map _ _ _ _ hr
      rw [step1, getD_map_of_lt _ cols i none [] (by rw [hlen]; exact hi),
        ← hZ,
        getD_zipWith_of_lt _ _ _ r none [] (NVal.num 0) (by rw [hsubs_len]; exact hr)
          (by rw [List.length_map, hsubs_len]; exact hr),
        hsub_r, if_pos hz]
  · rintro rfl l d hl hd hno
    have hdropAt : s.dropAt i = some d := by
      unfold FittedState.dropAt
      rw [hl]
      exact hd
    have hok : ∀ i2, ∃ col,
        invColumn s "error" i2 (subsAt s X i2) = .ok col := by
      intro i2
      by_cases h0 : (s.effCats i2).length = 0
      · exact ⟨_, invColumn_w0 s "error" i2 (subsAt s X i2) h0⟩
      · have hi2N : i2 < s.categories_.length := by
          by_contra hge
          apply h0
          have hdef : s.categories_.getD i2 [] = [] :=
            List.getD_eq_default _ _ (by omega)
          unfold FittedState.effCats
          cases hda : s.dropAt i2 <;> rw [hdef] <;> rfl
        cases hany : (subsAt s X i2).any (fun sub => sub.sum = 0) with
        | true =>
          cases hentry : l.getD i2 none with
          | none =>
            rw [hno i2 hi2N hentry] at hany
            cases hany
          | some d2 =>
            refine ⟨_, invColumn_dropped s "error" i2 d2 (subsAt s X i2) h0
              rfl hany ?_⟩
            unfold FittedState.dropAt
            rw [hl]
            exact hentry
        | false =>
          exact ⟨_, invColumn_noZero s "error" i2 (subsAt s X i2) h0 rfl hany⟩
    obtain ⟨cols, hgo, hlen, hq⟩ :=
      invGo_ok_all s "error" X hok s.categories_.length 0
    have hgo2 : invGo s "error" X (List.range' 0 s.categories_.length) 0 =
        .ok cols := hgo
    refine ⟨colsToRows X.length cols, ?_, ?_⟩
    · rw [inverse_transform_fst s "error" X hshape, List.range_eq_range',
        hgo2]
      rfl
    · have hanyi : (subsAt s X i).any (fun sub => sub.sum = 0) = true := by
        rw [List.any_eq_true]
        refine ⟨(subsAt s X i).getD r [], ?_, ?_⟩
        · rw [List.getD_eq_getElem _ _ (by rw [hsubs_len]; exact hr)]
          exact List.getElem_mem _
        · rw [hsub_r]
          exact decide_eq_true hz
      have hcoli := hq i hi
      rw [Nat.zero_add] at hcoli
      rw [invColumn_dropped s "error" i d (subsAt s X i) hw rfl hanyi
        hdropAt] at hcoli
      injection hcoli with hZ
      have step1 : (colsToRows X.length cols).getD r [] =
          cols.map (fun c => c.getD r none) := by
        unfold colsToRows
        exact getD_range_map _ _ _ _ hr
      rw [step1, getD_map_of_lt _ cols i none [] (by rw [hlen]; exact hi),
        ← hZ,
        getD_zipWith_of_lt _ _ _ r none [] (NVal.num 0) (by rw [hsubs_len]; exact hr)
          (by rw [List.length_map, hsubs_len]; exact hr),
        hsub_r, if_pos hz]
  · rintro rfl hdrop
    rw [inverse_transform_fst s "error" X hshape, List.range_eq_range']
    have herr := invGo_err_of_zero s "error" X r i (by decide) hdrop hr hz hw
      s.categories_.length 0 (by omega) (by omega)
    have herr2 : invGo s "error" X (List.range' 0 s.categories_.length) 0 =
        .error .inversionAllZero := herr
    rw [herr2]
    rfl
  · rintro rfl l hl hentry
    rw [inverse_transform_fst s "error" X hshape, List.range_eq_range']
    have herr := invGo_err_broadcast s "error" X r i l (by decide) hl hentry
      hr hz hw s.categories_.length 0 (by omega) (by omega)
    have herr2 : invGo s "error" X (List.range' 0 s.categories_.length) 0 =
        .error .broadcastMismatch := herr
    rw [herr2]
    rfl

theorem inverse_all_zero_block_witness :
    ∃ M, (OneHotEncoder.inverse_transform
        ⟨[[NVal.num 5, NVal.num 10]], none⟩ "ignore" [[0, 0]]).1 = .ok M ∧
      (M.getD 0 []).getD 0 none = none :=
  (inverse_all_zero_block ⟨[[NVal.num 5, NVal.num 10]], none⟩ "ignore"
    [[0, 0]] 0 0 (by decide) (by decide) (by decide) (by decide)
    (by decide)).1 rfl

/-- C3 counterexample to the original claim's second case: an
if-binary-style fitted state (binary column 0 with drop index 0,
three-category column 1 with the `None` no-drop sentinel) under
`handle_unknown='error'` on the all-zero row `[0,0,0,0]`.  Column 0's
sub-block is all zeros and a drop is configured for it, yet the call
does not return the dropped category's value: processing column 1 — a
`None` drop entry with an all-zero sub-block — executes
`categories_[1][None]`, whose newaxis broadcast assignment crashes, so
the whole call raises and produces no output. -/
theorem inverse_all_zero_block_counterexample :
    ((([0, 0, 0, 0] : List Nat).drop
        (colOffset ⟨[[NVal.num 1, NVal.num 2],
          [NVal.num 3, NVal.num 4, NVal.num 5]], some [some 0, none]⟩
          0)).take
      (colWidth ⟨[[NVal.num 1, NVal.num 2],
        [NVal.num 3, NVal.num 4, NVal.num 5]], some [some 0, none]⟩
        0)).sum = 0 ∧
    (OneHotEncoder.inverse_transform
      ⟨[[NVal.num 1, NVal.num 2], [NVal.num 3, NVal.num 4, NVal.num 5]],
        some [some 0, none]⟩ "error" [[0, 0, 0, 0]]).1 =
      .error .broadcastMismatch :=
  ⟨rfl, rfl⟩

/-! ## C4: CSR invariants of `transform` -/

theorem getD_zip_of_lt {α β : Type} (l1 : List α) (l2 : List β) (r : Nat)
    (d : α × β) (d1 : α) (d2 : β) (h1 : r < l1.length) (h2 : r < l2.length) :
    (l1.zip l2).getD r d = (l1.getD r d1, l2.getD r d2) := by
  rw [List.getD_eq_getElem _ _ (by rw [List.length_zip]; omega),
    List.getD_eq_getElem _ _ h1, List.getD_eq_getElem _ _ h2,
    List.getElem_zip]

theorem scanl_add_getD (l : List Nat) (b t : Nat) (h : t ≤ l.length) :
    (l.scanl (· + ·) b).getD t 0 = b + (l.take t).sum := by
  induction l generalizing b t with
  | nil =>
    have ht : t = 0 := by simpa using h
    subst ht
    simp
  | cons x xs ih =>
    rw [List.scanl_cons]
    cases t with
    | zero => simp
    | succ t2 =>
      simp only [List.cons_append, List.nil_append, List.getD_cons_succ,
        List.take_succ_cons, List.sum_cons]
      rw [ih (b + x) t2 (by simpa using h)]
      omega

theorem scanl_add_chain_le (l : List Nat) (b : Nat) :
    List.Chain' (· ≤ ·) (l.scanl (· + ·) b) := by
  induction l generalizing b with
  | nil => simp [List.scanl_nil]
  | cons x xs ih =>
    rw [List.scanl_cons]
    simp only [List.cons_append, List.nil_append]
    rw [List.chain'_cons']
    refine ⟨?_, ih (b + x)⟩
    intro y hy
    cases xs with
    | nil =>
      simp [List.scanl_nil] at hy
      omega
    | cons z zs =>
      rw [List.scanl_cons] at hy
      simp at hy
      omega

theorem flatten_drop_sum {α : Type} (L : List (List α)) (t : Nat) :
    L.flatten.drop (((L.map List.length).take t).sum) = (L.drop t).flatten := by
  induction L generalizing t with
  | nil => simp
  | cons l0 ls ih =>
    cases t with
    | zero => simp
    | succ t2 =>
      simp only [List.map_cons, List.take_succ_cons, List.sum_cons,
        List.flatten_cons, List.drop_succ_cons]
      rw [← List.drop_drop, List.drop_left]
      exact ih t2

theorem flatten_slice {α : Type} (L : List (List α)) (t : Nat)
    (h : t < L.length) :
    (L.flatten.take (((L.map List.length).take (t + 1)).sum)).drop
      (((L.map List.length).take t).sum) = L.getD t [] := by
  have ht2 : t < (L.map List.length).length := by simpa using h
  rw [List.drop_take, flatten_drop_sum,
    List.sum_take_succ _ t ht2]
  have hgd : (L.map List.length)[t] = (L.getD t []).length := by
    rw [← List.getD_eq_getElem _ 0 ht2,
      getD_map_of_lt List.length L t 0 [] h]
  rw [hgd]
  have hdrop : L.drop t = L.getD t [] :: L.drop (t + 1) := by
    rw [List.getD_eq_getElem _ _ h]
    exact (List.drop_eq_getElem_cons h)
  rw [hdrop, List.flatten_cons]
  simp only [Nat.add_sub_cancel_left]
  exact List.take_left _ _

theorem rowEntries_length (offs codes : List Nat) (mask : List Bool)
    (h1 : codes.length = mask.length) (h2 : codes.length ≤ offs.length) :
    (rowEntries offs codes mask).length = mask.count true := by
  induction codes generalizing offs mask with
  | nil =>
    cases mask with
    | nil => rfl
    | cons m ms => cases h1
  | cons c cs ih =>
    cases mask with
    | nil => cases h1
    | cons m ms =>
      cases offs with
      | nil => simp at h2
      | cons o os =>
        unfold rowEntries
        simp only [List.zipWith_cons_cons, List.zip_cons_cons,
          List.filterMap_cons]
        have hih := ih os ms (by simpa using h1) (by simpa using h2)
        unfold rowEntries at hih
        cases m with
        | true =>
          simp only [if_true, List.length_cons, List.count_cons_self]
          omega
        | false =>
          simp only [Bool.false_eq_true, if_false]
          rw [List.count_cons_of_ne (by simp)]
          exact hih

/-- Strict ascent and bounds for one row's flattened indices: if every
mask-true code is below its column's width, the retained entries are
strictly increasing and live in `[b, b + sum)`. -/
theorem rowEntries_chain (nv : List Nat) : ∀ (b : Nat) (codes : List Nat)
    (mask : List Bool), codes.length = nv.length → mask.length = nv.length →
    (∀ i2, i2 < nv.length → mask.getD i2 false = true →
      codes.getD i2 0 < nv.getD i2 0) →
    List.Chain' (· < ·) (rowEntries (nv.scanl (· + ·) b) codes mask) ∧
    ∀ x ∈ rowEntries (nv.scanl (· + ·) b) codes mask, b ≤ x ∧ x < b + nv.sum := by
  induction nv with
  | nil =>
    intro b codes mask h1 h2 _
    rw [List.length_eq_zero.mp h1]
    exact ⟨by constructor, by intro x hx; cases hx⟩
  | cons n0 nv2 ih =>
    intro b codes mask h1 h2 hbound
    cases codes with
    | nil => cases h1
    | cons c0 cs =>
      cases mask with
      | nil => cases h2
      | cons m0 ms =>
        rw [List.scanl_cons]
        have hrest := ih (b + n0) cs ms (by simpa using h1) (by simpa using h2)
          (fun i2 hi2 hm => hbound (i2 + 1) (by simpa using hi2) hm)
        unfold rowEntries at hrest ⊢
        simp only [List.cons_append, List.nil_append,
          List.zipWith_cons_cons, List.zip_cons_cons, List.filterMap_cons]
        cases m0 with
        | false =>
          simp only [Bool.false_eq_true, if_false]
          refine ⟨hrest.1, ?_⟩
          intro x hx
          have := hrest.2 x hx
          simp only [List.sum_cons]
          omega
        | true =>
          have hc0 : c0 < n0 := by
            have := hbound 0 (by simp) (by simp)
            simpa using this
          simp only [if_true]
          constructor
          · rw [List.chain'_cons']
            refine ⟨?_, hrest.1⟩
            intro y hy
            have hmem : y ∈ List.filterMap
                (fun p => if p.2 = true then some p.1 else none)
                (List.zip (List.zipWith (fun c o => c + o) cs
                  (List.scanl (· + ·) (b + n0) nv2)) ms) :=
              List.mem_of_mem_head? hy
            have := (hrest.2 y hmem).1
            omega
          · intro x hx
            simp only [List.sum_cons]
            rcases List.mem_cons.mp hx with rfl | hx2
            · omega
            · have := hrest.2 x hx2
              omega

theorem transformCell_snd (cats : List NVal) (v : NVal) :
    (transformCell cats v).2 = cats.contains v := rfl

theorem transformCell_fst_of_valid (cats : List NVal) (v : NVal)
    (h : cats.contains v = true) :
    (transformCell cats v).1 = cats.indexOf v := by
  have hmem : v ∈ cats := List.elem_iff.mp h
  unfold transformCell
  simp [hmem]

theorem transformCell_lt_of_valid (cats : List NVal) (v : NVal)
    (h : (transformCell cats v).2 = true) :
    (transformCell cats v).1 < cats.length := by
  rw [transformCell_snd] at h
  have hmem : v ∈ cats := by
    have : cats.elem v = true := h
    exact List.elem_iff.mp this
  rw [transformCell_fst_of_valid cats v h]
  exact List.indexOf_lt_length.mpr hmem

theorem dropAdjustCell_snd (n : Nat) (d : Option Nat) (code : Nat)
    (m : Bool) :
    (dropAdjustCell n d code m).2 =
      (m && (match d with | none => true | some dd => code != dd)) := rfl

theorem dropAdjustCell_lt_none (n code : Nat) (m : Bool) (hc : code < n) :
    (dropAdjustCell n none code m).1 < n := by
  simpa [dropAdjustCell, Nat.not_lt.mpr (Nat.le_of_lt hc)] using hc

theorem dropAdjustCell_lt_some (n dd code : Nat) (m : Bool) (hc : code < n)
    (hdd : dd < n) (hm : (dropAdjustCell n (some dd) code m).2 = true) :
    (dropAdjustCell n (some dd) code m).1 < n - 1 := by
  have hne : code ≠ dd := by
    intro he
    subst he
    simp [dropAdjustCell] at hm
  simp only [dropAdjustCell, Option.getD_some]
  by_cases hlt : dd < code
  · rw [if_pos hlt]
    omega
  · rw [if_neg hlt]
    omega

theorem baseTransform_ok_shape (cats : List (List NVal)) (hu : String)
    (X : List (List NVal)) (tm : List (List Nat) × List (List Bool))
    (h : baseTransform cats hu X = .ok tm) :
    (∀ row ∈ X, row.length = cats.length) ∧
    tm = (X.map (fun row =>
            List.zipWith (fun c v => (transformCell c v).1) cats row),
          X.map (fun row =>
            List.zipWith (fun c v => (transformCell c v).2) cats row)) := by
  unfold baseTransform at h
  split at h
  next h1 => cases h
  next h1 =>
    split at h
    next i heq => cases h
    next heq =>
      injection h with h2
      refine ⟨?_, h2.symm⟩
      intro row hrow
      by_contra hne
      exact h1 (List.any_eq_true.mpr ⟨row, hrow, decide_eq_true hne⟩)

theorem transform_ok_inv (s : FittedState) (hu : String)
    (X : List (List NVal)) (csr : CSR)
    (h : (OneHotEncoder.transform s hu X).1 = .ok csr) :
    ∃ tm, baseTransform s.categories_ hu X = .ok tm ∧
      csr = assembleCSR (nValues s.categories_ s.drop_idx_)
        (adjustedRows s tm.1 tm.2) := by
  simp only [OneHotEncoder.transform] at h
  cases ht : baseTransform s.categories_ hu X with
  | error e =>
    rw [ht] at h
    simp [Bind.bind, Except.bind] at h
  | ok tm =>
    rw [ht] at h
    simp only [Bind.bind, Except.bind, Pure.pure, Except.pure,
      Except.ok.injEq] at h
    exact ⟨tm, rfl, h.symm⟩

theorem adjustedRows_eq_map (s : FittedState) (X : List (List NVal)) :
    adjustedRows s
      (X.map (fun row =>
        List.zipWith (fun c v => (transformCell c v).1) s.categories_ row))
      (X.map (fun row =>
        List.zipWith (fun c v => (transformCell c v).2) s.categories_ row)) =
    X.map (transformRowPair s) := by
  unfold adjustedRows
  rw [List.zipWith_map_left, List.zipWith_map_right, List.zipWith_same]
  apply List.map_congr_left
  intro row _
  unfold transformRowPair
  cases s.drop_idx_ <;> rfl

theorem nValues_length (s : FittedState)
    (hdl : ∀ l, s.drop_idx_ = some l → l.length = s.categories_.length) :
    (nValues s.categories_ s.drop_idx_).length = s.categories_.length := by
  cases hd : s.drop_idx_ with
  | none => simp [nValues]
  | some l =>
    simp only [nValues, List.length_zipWith]
    rw [hdl l hd]
    omega

/-- Lengths and the per-column code bound for one adjusted row. -/
theorem transformRowPair_spec (s : FittedState) (row : List NVal)
    (hrow : row.length = s.categories_.length)
    (hdl : ∀ l, s.drop_idx_ = some l → l.length = s.categories_.length)
    (hdr : ∀ l i2 d, s.drop_idx_ = some l → l.getD i2 none = some d →
      d < (s.categories_.getD i2 []).length) :
    (transformRowPair s row).1.length = s.categories_.length ∧
    (transformRowPair s row).2.length = s.categories_.length ∧
    ∀ i2, i2 < s.categories_.length →
      (transformRowPair s row).2.getD i2 false = true →
      (transformRowPair s row).1.getD i2 0 <
        (nValues s.categories_ s.drop_idx_).getD i2 0 := by
  have hclen : (List.zipWith (fun c v => (transformCell c v).1)
      s.categories_ row).length = s.categories_.length := by
    rw [List.length_zipWith, hrow]
    omega
  have hmlen : (List.zipWith (fun c v => (transformCell c v).2)
      s.categories_ row).length = s.categories_.length := by
    rw [List.length_zipWith, hrow]
    omega
  cases hd : s.drop_idx_ with
  | none =>
    simp only [transformRowPair, hd]
    refine ⟨hclen, hmlen, ?_⟩
    intro i2 hi2 hm
    rw [getD_zipWith_of_lt _ _ _ i2 false [] (NVal.num 0) hi2
      (by omega)] at hm
    rw [getD_zipWith_of_lt _ _ _ i2 0 [] (NVal.num 0) hi2 (by omega)]
    simp only [nValues]
    rw [getD_map_of_lt List.length s.categories_ i2 0 [] hi2]
    exact transformCell_lt_of_valid _ _ hm
  | some l =>
    have hllen := hdl l hd
    have halen : (adjustRow s.categories_ l
        (List.zipWith (fun c v => (transformCell c v).1) s.categories_ row)
        (List.zipWith (fun c v => (transformCell c v).2) s.categories_ row)).length =
        s.categories_.length := by
      unfold adjustRow
      rw [List.length_zipWith, List.length_zip, List.length_zip, hllen,
        hclen, hmlen]
      omega
    simp only [transformRowPair, hd]
    refine ⟨by rw [List.length_map]; exact halen,
      by rw [List.length_map]; exact halen, ?_⟩
    intro i2 hi2 hm
    have hcell : (adjustRow s.categories_ l
        (List.zipWith (fun c v => (transformCell c v).1) s.categories_ row)
        (List.zipWith (fun c v => (transformCell c v).2) s.categories_ row)).getD
          i2 (0, false) =
        dropAdjustCell (s.categories_.getD i2 []).length (l.getD i2 none)
          ((List.zipWith (fun c v => (transformCell c v).1)
            s.categories_ row).getD i2 0)
          ((List.zipWith (fun c v => (transformCell c v).2)
            s.categories_ row).getD i2 false) := by
      unfold adjustRow
      rw [getD_zipWith_of_lt _ _ _ i2 (0, false) ([], none) (0, false)
        (by rw [List.length_zip, hllen]; omega)
        (by rw [List.length_zip, hclen, hmlen]; omega),
        getD_zip_of_lt _ _ i2 ([], none) [] none (by omega)
          (by rw [hllen]; omega),
        getD_zip_of_lt _ _ i2 (0, false) 0 false (by rw [hclen]; omega)
          (by rw [hmlen]; omega)]
    rw [getD_map_of_lt Prod.snd _ i2 false (0, false) (by omega)] at hm
    rw [getD_map_of_lt Prod.fst _ i2 0 (0, false) (by omega)]
    rw [hcell] at hm ⊢
    have hmm : ((List.zipWith (fun c v => (transformCell c v).2)
        s.categories_ row).getD i2 false) = true := by
      have hm2 := hm
      rw [dropAdjustCell_snd, Bool.and_eq_true] at hm2
      exact hm2.1
    have hmem := hmm
    rw [getD_zipWith_of_lt _ _ _ i2 false [] (NVal.num 0) hi2 (by omega)]
      at hmem
    have hcode : ((List.zipWith (fun c v => (transformCell c v).1)
        s.categories_ row).getD i2 0) < (s.categories_.getD i2 []).length := by
      rw [getD_zipWith_of_lt _ _ _ i2 0 [] (NVal.num 0) hi2 (by omega)]
      exact transformCell_lt_of_valid _ _ hmem
    have hnv0 := getD_zipWith_of_lt
      (fun (cats : List NVal) (d : Option Nat) =>
        match d with
        | none => cats.length
        | some _ => cats.length - 1) s.categories_ l i2 0 [] none hi2
      (by rw [hllen]; omega)
    cases hdo : l.getD i2 none with
    | none =>
      have hnv : (nValues s.categories_ (some l)).getD i2 0 =
          (s.categories_.getD i2 []).length := by
        simp only [nValues]
        rw [hnv0, hdo]
      rw [hnv]
      exact dropAdjustCell_lt_none _ _ _ hcode
    | some dd =>
      rw [hdo] at hm
      have hnv : (nValues s.categories_ (some l)).getD i2 0 =
          (s.categories_.getD i2 []).length - 1 := by
        simp only [nValues]
        rw [hnv0, hdo]
      rw [hnv]
      exact dropAdjustCell_lt_some _ _ _ _ hcode (hdr l i2 dd hd hdo) hm

/-- C4: for every CSR matrix returned by `transform` on a fitted encoder
(drop list aligned with the columns and drop indices in range):
`row_pointers` has length `n_rows+1` and starts at `0`, is monotone
non-decreasing, and each entry is the cumulative count of mask-true
cells of the preceding rows; `column_indices` has length
`row_pointers[-1]`; within each row the stored column indices are
strictly ascending; and every stored value is `1`. -/
theorem transform_csr_invariants (s : FittedState) (hu : String)
    (X : List (List NVal)) (csr : CSR)
    (hok : (OneHotEncoder.transform s hu X).1 = .ok csr)
    (hdl : ∀ l, s.drop_idx_ = some l → l.length = s.categories_.length)
    (hdr : ∀ l i2 d, s.drop_idx_ = some l → l.getD i2 none = some d →
      d < (s.categories_.getD i2 []).length) :
    csr.indptr.length = X.length + 1 ∧
    csr.indptr.getD 0 0 = 0 ∧
    List.Chain' (· ≤ ·) csr.indptr ∧
    (∀ t, t ≤ X.length → csr.indptr.getD t 0 =
      ((((finalMasks s hu X).take t).map (fun m => m.count true)).sum)) ∧
    csr.indices.length = csr.indptr.getLastD 0 ∧
    (∀ t, t < X.length → List.Chain' (· < ·)
      ((csr.indices.take (csr.indptr.getD (t + 1) 0)).drop
        (csr.indptr.getD t 0))) ∧
    csr.data = List.replicate csr.indices.length 1 := by
  obtain ⟨tm, ht, hcsr⟩ := transform_ok_inv s hu X csr hok
  obtain ⟨hrect, htm⟩ := baseTransform_ok_shape _ _ _ _ ht
  have hrows : adjustedRows s tm.1 tm.2 = X.map (transformRowPair s) := by
    rw [htm]
    exact adjustedRows_eq_map s X
  rw [hrows] at hcsr
  subst hcsr
  have hnvlen := nValues_length s hdl
  have hspec := fun row (hrow : row ∈ X) =>
    transformRowPair_spec s row (hrect row hrow) hdl hdr
  have hcntlen : ((X.map (transformRowPair s)).map
      (fun rc => rc.2.count true)).length = X.length := by
    rw [List.length_map, List.length_map]
  have hentlen : (((X.map (transformRowPair s)).map
      (fun rc => rowEntries (featureIndices (nValues s.categories_ s.drop_idx_))
        rc.1 rc.2)).map List.length) =
      (X.map (transformRowPair s)).map (fun rc => rc.2.count true) := by
    rw [List.map_map]
    apply List.map_congr_left
    intro rc hrc
    rcases List.mem_map.mp hrc with ⟨row, hrow, rfl⟩
    obtain ⟨h1, h2, _⟩ := hspec row hrow
    simp only [Function.comp]
    exact rowEntries_length _ _ _ (by rw [h1, h2])
      (by
        rw [h1]
        unfold featureIndices
        rw [List.length_scanl, hnvlen]
        omega)
  have hfm : finalMasks s hu X =
      (X.map (transformRowPair s)).map Prod.snd := by
    unfold finalMasks
    simp only [ht]
    rw [hrows]
  refine ⟨?_, ?_, ?_, ?_, ?_, ?_, ?_⟩
  · show (((X.map (transformRowPair s)).map
      (fun rc => rc.2.count true)).scanl (· + ·) 0).length = X.length + 1
    rw [List.length_scanl, hcntlen]
  · show (((X.map (transformRowPair s)).map
      (fun rc => rc.2.count true)).scanl (· + ·) 0).getD 0 0 = 0
    rw [scanl_add_getD _ 0 0 (Nat.zero_le _)]
    simp
  · exact scanl_add_chain_le _ 0
  · intro t htle
    show (((X.map (transformRowPair s)).map
      (fun rc => rc.2.count true)).scanl (· + ·) 0).getD t 0 = _
    rw [scanl_add_getD _ 0 t (by rw [hcntlen]; exact htle), hfm,
      Nat.zero_add]
    simp only [← List.map_take, List.map_map]
    rfl
  · show (((X.map (transformRowPair s)).map
      (fun rc => rowEntries (featureIndices (nValues s.categories_ s.drop_idx_))
        rc.1 rc.2)).flatten).length =
      (((X.map (transformRowPair s)).map
        (fun rc => rc.2.count true)).scanl (· + ·) 0).getLastD 0
    rw [List.length_flatten, hentlen, scanl_add_getLastD]
    omega
  · intro t htlt
    show List.Chain' (· < ·) (((((X.map (transformRowPair s)).map
      (fun rc => rowEntries (featureIndices (nValues s.categories_ s.drop_idx_))
        rc.1 rc.2)).flatten).take
        ((((X.map (transformRowPair s)).map
          (fun rc => rc.2.count true)).scanl (· + ·) 0).getD (t + 1) 0)).drop
        ((((X.map (transformRowPair s)).map
          (fun rc => rc.2.count true)).scanl (· + ·) 0).getD t 0))
    rw [scanl_add_getD _ 0 (t + 1) (by rw [hcntlen]; omega),
      scanl_add_getD _ 0 t (by rw [hcntlen]; omega),
      Nat.zero_add, Nat.zero_add, ← hentlen,
      flatten_slice _ t (by rw [List.length_map, List.length_map]; exact htlt)]
    rw [getD_map_of_lt
      (fun rc => rowEntries (featureIndices (nValues s.categories_ s.drop_idx_))
        rc.1 rc.2) (X.map (transformRowPair s)) t [] ([], [])
      (by rw [List.length_map]; exact htlt)]
    rw [getD_map_of_lt (transformRowPair s) X t ([], []) [] htlt]
    have hrowmem : X.getD t [] ∈ X := by
      rw [List.getD_eq_getElem _ _ htlt]
      exact List.getElem_mem htlt
    obtain ⟨h1, h2, h3⟩ := hspec (X.getD t []) hrowmem
    exact (rowEntries_chain (nValues s.categories_ s.drop_idx_) 0
      (transformRowPair s (X.getD t [])).1
      (transformRowPair s (X.getD t [])).2
      (by rw [h1, hnvlen]) (by rw [h2, hnvlen])
      (fun i2 hi2 hm => h3 i2 (by rw [← hnvlen]; exact hi2) hm)).1
  · show List.replicate (((X.map (transformRowPair s)).map
      (fun rc => rc.2.count true)).sum) 1 =
      List.replicate ((((X.map (transformRowPair s)).map
        (fun rc => rowEntries (featureIndices (nValues s.categories_ s.drop_idx_))
          rc.1 rc.2)).flatten).length) 1
    rw [List.length_flatten, hentlen]

theorem transform_csr_invariants_witness :
    ([0, 2, 3] : List Nat).length = 2 + 1 ∧
      List.Chain' (· ≤ ·) ([0, 2, 3] : List Nat) ∧
      ([1, 1, 1] : List Nat) = List.replicate ([0, 2, 1] : List Nat).length 1 := by
  have hok : (OneHotEncoder.transform
      ⟨[[NVal.num 5, NVal.num 10], [NVal.num 1, NVal.num 2, NVal.num 3]],
        some [some 0, none]⟩ "error"
      [[NVal.num 10, NVal.num 2], [NVal.num 5, NVal.num 1]]).1 =
      .ok ⟨[1, 1, 1], [0, 2, 1], [0, 2, 3], 2, 4⟩ := by rfl
  have h := transform_csr_invariants
    ⟨[[NVal.num 5, NVal.num 10], [NVal.num 1, NVal.num 2, NVal.num 3]],
      some [some 0, none]⟩ "error"
    [[NVal.num 10, NVal.num 2], [NVal.num 5, NVal.num 1]]
    ⟨[1, 1, 1], [0, 2, 1], [0, 2, 3], 2, 4⟩ hok
    (by intro l hl; cases hl; rfl)
    (by
      intro l i2 d hl hd2
      cases hl
      rcases i2 with _ | _ | i3
      · simp at hd2
        show d < 2
        omega
      · simp at hd2
      · simp at hd2)
  exact ⟨h.1, h.2.2.1, h.2.2.2.2.2.2⟩

/-! ## C1: the round trip with `drop=None` -/

theorem oneHot_length (w c : Nat) : (oneHot w c).length = w := by
  simp [oneHot]

theorem oneHot_succ_succ (w c : Nat) : oneHot (w + 1) (c + 1) = 0 :: oneHot w c := by
  unfold oneHot
  rw [List.range_succ_eq_map, List.map_cons, List.map_map]
  rw [if_neg (by omega)]
  congr 1
  apply List.map_congr_left
  intro j _
  simp only [Function.comp]
  by_cases hj : j = c
  · rw [if_pos (by omega), if_pos hj]
  · rw [if_neg (by omega), if_neg hj]

theorem oneHot_succ_zero (w : Nat) : oneHot (w + 1) 0 = 1 :: List.replicate w 0 := by
  unfold oneHot
  rw [List.range_succ_eq_map, List.map_cons, if_pos rfl, List.map_map]
  congr 1
  rw [List.eq_replicate]
  refine ⟨by simp, ?_⟩
  intro b hb
  rcases List.mem_map.mp hb with ⟨j, _, rfl⟩
  simp [Function.comp]

theorem getD_replicate_zero (m j : Nat) :
    (List.replicate m 0).getD j 0 = 0 := by
  induction m generalizing j with
  | zero => cases j <;> rfl
  | succ m2 ih =>
    rw [List.replicate_succ]
    cases j with
    | zero => rfl
    | succ j2 => rw [List.getD_cons_succ]; exact ih j2

theorem oneHot_sum (w c : Nat) (h : c < w) : (oneHot w c).sum = 1 := by
  induction c generalizing w with
  | zero =>
    obtain ⟨m, rfl⟩ : ∃ m, w = m + 1 := ⟨w - 1, by omega⟩
    rw [oneHot_succ_zero, List.sum_cons]
    have : (List.replicate m 0).sum = 0 := by
      induction m with
      | zero => rfl
      | succ m2 ih2 => rw [List.replicate_succ, List.sum_cons, ih2 (by omega)]
    omega
  | succ c2 ih =>
    obtain ⟨w2, rfl⟩ : ∃ w2, w = w2 + 1 := ⟨w - 1, by omega⟩
    rw [oneHot_succ_succ, List.sum_cons, ih w2 (by omega)]

theorem argmaxFirst_replicate_zero (n : Nat) :
    argmaxFirst (List.replicate n 0) = 0 := by
  cases n with
  | zero => rfl
  | succ m =>
    rw [List.replicate_succ]
    unfold argmaxFirst
    rw [if_neg]
    rw [getD_replicate_zero]
    omega

theorem oneHot_getD_self (w c : Nat) (h : c < w) :
    (oneHot w c).getD c 0 = 1 := by
  unfold oneHot
  rw [List.getD_eq_getElem _ _ (by simpa using h), List.getElem_map,
    List.getElem_range, if_pos rfl]

theorem argmaxFirst_oneHot (w c : Nat) (h : c < w) :
    argmaxFirst (oneHot w c) = c := by
  induction c generalizing w with
  | zero =>
    obtain ⟨m, rfl⟩ : ∃ m, w = m + 1 := ⟨w - 1, by omega⟩
    rw [oneHot_succ_zero]
    unfold argmaxFirst
    rw [if_neg]
    rw [argmaxFirst_replicate_zero, getD_replicate_zero]
    omega
  | succ c2 ih =>
    obtain ⟨w2, rfl⟩ : ∃ w2, w = w2 + 1 := ⟨w - 1, by omega⟩
    rw [oneHot_succ_succ]
    unfold argmaxFirst
    rw [if_pos]
    · rw [ih w2 (by omega)]
    · rw [ih w2 (by omega), oneHot_getD_self w2 c2 (by omega)]
      omega

theorem getD_indexOf (l : List NVal) (v : NVal) (d : NVal) (h : v ∈ l) :
    l.getD (l.indexOf v) d = v := by
  rw [List.getD_eq_getElem _ _ (List.indexOf_lt_length.mpr h)]
  exact List.getElem_indexOf _

theorem forall₂_mem_getD (row : List NVal) (cats : List (List NVal))
    (h : List.Forall₂ (fun v c => v ∈ c) row cats) (q : Nat)
    (hq : q < cats.length) :
    (row.getD q (NVal.num 0)) ∈ (cats.getD q []) := by
  induction h generalizing q with
  | nil => simp at hq
  | cons hrel hrest ih =>
    cases q with
    | zero => simpa using hrel
    | succ q2 =>
      simp only [List.getD_cons_succ]
      exact ih q2 (by simpa using hq)

theorem map_range_getD {α : Type} (l : List α) (d : α) :
    (List.range l.length).map (fun q => l.getD q d) = l := by
  apply List.ext_getElem (by simp)
  intro q h1 h2
  rw [List.getElem_map, List.getElem_range, List.getD_eq_getElem _ _ h2]

/-! ## C1: the round trip with drop=None -/

theorem scanl_add_shift (l : List Nat) (a : Nat) : ∀ b : Nat,
    l.scanl (· + ·) (a + b) = (l.scanl (· + ·) b).map (fun x => a + x) := by
  induction l with
  | nil => intro b; rfl
  | cons x xs ih =>
    intro b
    rw [List.scanl_cons, List.scanl_cons]
    simp only [List.cons_append, List.nil_append, List.map_cons]
    rw [show a + b + x = a + (b + x) from by omega, ih (b + x)]

theorem zipWith_add_map_left (cs : List Nat) (w : Nat) : ∀ base : List Nat,
    List.zipWith (fun c o => c + o) cs (base.map (fun x => w + x)) =
      (List.zipWith (fun c o => c + o) cs base).map (fun x => w + x) := by
  induction cs with
  | nil => intro base; rfl
  | cons c cs2 ih =>
    intro base
    cases base with
    | nil => rfl
    | cons o os =>
      rw [List.map_cons, List.zipWith_cons_cons, List.zipWith_cons_cons,
        List.map_cons, ih os]
      rw [show c + (w + o) = w + (c + o) from by omega]

theorem count_map_add_left (l : List Nat) (w j : Nat) :
    (l.map (fun x => w + x)).count (w + j) = l.count j := by
  induction l with
  | nil => rfl
  | cons x xs ih =>
    rw [List.map_cons, List.count_cons, List.count_cons, ih]
    congr 1
    simp only [beq_iff_eq]
    have he : (w + j = w + x) ↔ (j = x) := by omega
    simp [he]

theorem count_map_add_zero (l : List Nat) (w j : Nat) (h : j < w) :
    (l.map (fun x => w + x)).count j = 0 := by
  rw [List.count_eq_zero]
  intro hmem
  rcases List.mem_map.mp hmem with ⟨x, _, hx⟩
  omega

theorem densify_cons (w n c : Nat) (l : List Nat) (hc : c < w) :
    densify (w + n) (c :: l.map (fun x => w + x)) =
      oneHot w c ++ densify n l := by
  unfold densify oneHot
  rw [List.range_add, List.map_append]
  congr 1
  · apply List.map_congr_left
    intro j hj
    have hjw : j < w := List.mem_range.mp hj
    rw [List.count_cons, count_map_add_zero l w j hjw]
    simp only [beq_iff_eq, Nat.zero_add]
    by_cases hjc : j = c
    · simp [hjc]
    · simp [hjc, Ne.symm hjc]
  · rw [List.map_map]
    apply List.map_congr_left
    intro j _
    simp only [Function.comp]
    rw [List.count_cons, count_map_add_left]
    rw [if_neg (by simp only [beq_iff_eq]; omega)]
    omega

theorem densify_flatten (lens codes : List Nat)
    (h : List.Forall₂ (fun c w => c < w) codes lens) :
    densify lens.sum
      (List.zipWith (fun c o => c + o) codes (lens.scanl (· + ·) 0)) =
    (List.zipWith oneHot lens codes).flatten := by
  induction h with
  | nil => rfl
  | @cons c w cs ws hcw _ ih =>
    rw [List.sum_cons, List.scanl_cons]
    simp only [Nat.add_zero, Nat.zero_add, List.nil_append, List.cons_append,
      List.zipWith_cons_cons, List.flatten_cons]
    rw [show List.scanl (· + ·) w ws =
        (List.scanl (· + ·) 0 ws).map (fun x => w + x) from by
      have h2 := scanl_add_shift ws w 0
      simpa using h2]
    rw [zipWith_add_map_left]
    rw [densify_cons w ws.sum c _ hcw, ih]

theorem filterMap_zip_true (E : List Nat) : ∀ n : Nat, E.length ≤ n →
    ((E.zip (List.replicate n true)).filterMap
      (fun p => if p.2 then some p.1 else none)) = E := by
  induction E with
  | nil => intro n _; rfl
  | cons e es ih =>
    intro n hn
    cases n with
    | zero => simp at hn
    | succ m =>
      rw [List.replicate_succ, List.zip_cons_cons, List.filterMap_cons]
      simp [ih m (by simpa using hn)]

theorem rowEntries_all_true (offs codes : List Nat)
    (h : codes.length ≤ offs.length) :
    rowEntries offs codes (List.replicate codes.length true) =
      List.zipWith (fun c o => c + o) codes offs := by
  unfold rowEntries
  have hlen : (List.zipWith (fun c o => c + o) codes offs).length =
      codes.length := by
    rw [List.length_zipWith]
    omega
  rw [← hlen]
  exact filterMap_zip_true _ _ (le_refl _)

theorem filterMap_zip_ones_sum (l : List Nat) (c : Nat) : ∀ n : Nat,
    l.length ≤ n →
    ((l.zip (List.replicate n 1)).filterMap
      (fun p => if p.1 = c then some p.2 else none)).sum = l.count c := by
  induction l with
  | nil => intro n _; rfl
  | cons x xs ih =>
    intro n hn
    cases n with
    | zero => simp at hn
    | succ m =>
      simp only [List.replicate_succ, List.zip_cons_cons, List.filterMap_cons,
        List.count_cons, beq_iff_eq]
      by_cases hx : x = c
      · simp only [if_pos hx, if_pos hx.symm, List.sum_cons,
          ih m (by simpa using hn)]
        omega
      · simp only [if_neg hx, if_neg (fun he : c = x => hx he.symm),
          ih m (by simpa using hn)]
        omega

theorem take_eq_range_map_getD {α : Type} (l : List α) (d : α) (a : Nat)
    (h : a ≤ l.length) :
    l.take a = (List.range a).map (fun i => l.getD i d) := by
  apply List.ext_getElem
  · rw [List.length_take, List.length_map, List.length_range]
    omega
  · intro q h1 h2
    rw [List.length_take] at h1
    rw [List.getElem_take, List.getElem_map, List.getElem_range,
      List.getD_eq_getElem _ _ (by omega)]

theorem colOffset_eq_sum (s : FittedState) (hd : s.drop_idx_ = none)
    (a : Nat) (h : a ≤ s.categories_.length) :
    colOffset s a = ((s.categories_.map List.length).take a).sum := by
  unfold colOffset
  rw [take_eq_range_map_getD (s.categories_.map List.length) 0 a
    (by rw [List.length_map]; omega)]
  congr 1
  apply List.map_congr_left
  intro i hi
  have hia : i < a := List.mem_range.mp hi
  simp only [colWidth, FittedState.effCats, FittedState.dropAt, hd]
  exact (getD_map_of_lt List.length s.categories_ i 0 [] (by omega)).symm

theorem masks_all_true (cats : List (List NVal)) (row : List NVal)
    (h : List.Forall₂ (fun v c => v ∈ c) row cats) :
    List.zipWith (fun c v => (transformCell c v).2) cats row =
      List.replicate cats.length true := by
  induction h with
  | nil => rfl
  | @cons v c row2 cats2 hrel _ ih =>
    rw [List.zipWith_cons_cons, List.length_cons, List.replicate_succ, ih]
    congr 1
    rw [transformCell_snd]
    exact List.elem_iff.mpr hrel

theorem codes_lt (cats : List (List NVal)) (row : List NVal)
    (h : List.Forall₂ (fun v c => v ∈ c) row cats) :
    List.Forall₂ (fun c w => c < w)
      (List.zipWith (fun c v => (transformCell c v).1) cats row)
      (cats.map List.length) := by
  induction h with
  | nil => exact List.Forall₂.nil
  | @cons v c row2 cats2 hrel _ ih =>
    rw [List.zipWith_cons_cons, List.map_cons]
    exact List.Forall₂.cons
      (transformCell_lt_of_valid c v
        (by rw [transformCell_snd]; exact List.elem_iff.mpr hrel)) ih

theorem map_length_zipWith_oneHot (lens : List Nat) : ∀ codes : List Nat,
    codes.length = lens.length →
    (List.zipWith oneHot lens codes).map List.length = lens := by
  induction lens with
  | nil => intro codes _; rfl
  | cons w ws ih =>
    intro codes h
    cases codes with
    | nil => cases h
    | cons c cs =>
      rw [List.zipWith_cons_cons, List.map_cons, oneHot_length,
        ih cs (by simpa using h)]

theorem invColumn_nil (s : FittedState) (hu : String) (i : Nat) :
    invColumn s hu i [] = .ok [] := by
  simp only [invColumn]
  split_ifs <;> simp_all

theorem zipWith_ite_some (f : List Nat → NVal) : ∀ subs : List (List Nat),
    (∀ sub ∈ subs, ¬sub.sum = 0) →
    List.zipWith (fun sub b => if sub.sum = 0 then none else some b) subs
      (subs.map f) = (subs.map f).map some := by
  intro subs
  induction subs with
  | nil => intro _; rfl
  | cons x xs ih =>
    intro h
    rw [List.map_cons, List.zipWith_cons_cons, List.map_cons,
      if_neg (h x (List.mem_cons_self x xs)),
      ih (fun sub hs => h sub (List.mem_cons_of_mem x hs))]

theorem flatten_slice2 {α : Type} (L : List (List α)) (t : Nat)
    (h : t < L.length) :
    (L.flatten.drop (((L.map List.length).take t).sum)).take
      ((L.map List.length).getD t 0) = L.getD t [] := by
  have hs := flatten_slice L t h
  have ht2 : t < (L.map List.length).length := by simpa using h
  have key : ((L.map List.length).take (t + 1)).sum -
      ((L.map List.length).take t).sum = (L.map List.length).getD t 0 := by
    rw [List.sum_take_succ _ t ht2, List.getD_eq_getElem _ _ ht2]
    omega
  rw [← key, ← List.drop_take]
  exact hs

theorem csr_denseRow (N W : Nat) (ents : List (List Nat)) (r : Nat)
    (hr : r < ents.length) (hlen : ∀ e ∈ ents, e.length = N) :
    CSR.denseRow
      { data := List.replicate (ents.length * N) 1
        indices := ents.flatten
        indptr := (List.replicate ents.length N).scanl (· + ·) 0
        nrows := ents.length
        ncols := W } r =
    densify W (ents.getD r []) := by
  have hml : ents.map List.length = List.replicate ents.length N := by
    rw [List.eq_replicate]
    refine ⟨by rw [List.length_map], ?_⟩
    intro b hb
    rcases List.mem_map.mp hb with ⟨e, he, rfl⟩
    exact hlen e he
  have hlo : ((List.replicate ents.length N).scanl (· + ·) 0).getD r 0 =
      r * N := by
    rw [scanl_add_getD _ 0 r (by rw [List.length_replicate]; omega),
      List.take_replicate, Nat.min_eq_left (Nat.le_of_lt hr),
      List.sum_replicate, smul_eq_mul]
    omega
  have hhi : ((List.replicate ents.length N).scanl (· + ·) 0).getD (r + 1) 0 =
      (r + 1) * N := by
    rw [scanl_add_getD _ 0 (r + 1) (by rw [List.length_replicate]; omega),
      List.take_replicate, Nat.min_eq_left (by omega),
      List.sum_replicate, smul_eq_mul]
    omega
  have hidx : (ents.flatten.take ((r + 1) * N)).drop (r * N) =
      ents.getD r [] := by
    have hs := flatten_slice ents r hr
    rw [hml, List.take_replicate, List.take_replicate,
      Nat.min_eq_left (show r + 1 ≤ ents.length from by omega),
      Nat.min_eq_left (show r ≤ ents.length from Nat.le_of_lt hr),
      List.sum_replicate, List.sum_replicate, smul_eq_mul, smul_eq_mul] at hs
    exact hs
  have hval : ((List.replicate (ents.length * N) 1).take ((r + 1) * N)).drop
      (r * N) = List.replicate N 1 := by
    rw [List.take_replicate,
      Nat.min_eq_left (Nat.mul_le_mul_right N (by omega)),
      List.drop_replicate]
    congr 1
    rw [Nat.succ_mul]
    omega
  have hrowlen : (ents.getD r []).length = N :=
    hlen _ (by rw [List.getD_eq_getElem _ _ hr]; exact List.getElem_mem hr)
  simp only [CSR.denseRow]
  rw [hlo, hhi, hidx, hval]
  unfold densify
  apply List.map_congr_left
  intro c _
  rw [← hrowlen]
  exact filterMap_zip_ones_sum (ents.getD r []) c _ (le_refl _)

theorem transformDense_eq (s : FittedState) (hu : String)
    (X : List (List NVal)) (hd : s.drop_idx_ = none)
    (hv : ∀ row ∈ X, List.Forall₂ (fun v c => v ∈ c) row s.categories_) :
    OneHotEncoder.transformDense s hu X = .ok (X.map (fun row =>
      (List.zipWith oneHot (s.categories_.map List.length)
        (List.zipWith (fun c v => (transformCell c v).1)
          s.categories_ row)).flatten)) := by
  have hrl : ∀ row ∈ X, row.length = s.categories_.length := by
    intro row hrow
    exact (hv row hrow).length_eq
  have hbt : baseTransform s.categories_ hu X = .ok
      (X.map (fun row =>
        List.zipWith (fun c v => (transformCell c v).1) s.categories_ row),
       X.map (fun row =>
        List.zipWith (fun c v => (transformCell c v).2) s.categories_ row)) := by
    unfold baseTransform
    rw [if_neg, List.find?_eq_none.mpr]
    · intro i hi
      rw [Bool.and_eq_true, not_and]
      intro _
      rw [Bool.not_eq_true, List.any_eq_false]
      intro row hrow
      have hmem := forall₂_mem_getD row s.categories_ (hv row hrow) i
        (List.mem_range.mp hi)
      have hc : (s.categories_.getD i []).contains (row.getD i (NVal.num 0)) =
          true := List.elem_iff.mpr hmem
      rw [hc]
      simp
    · intro hbad
      rw [List.any_eq_true] at hbad
      obtain ⟨row, hrow, hne⟩ := hbad
      exact absurd (hrl row hrow) (by simpa using hne)
  have htr : (OneHotEncoder.transform s hu X).1 = .ok
      (assembleCSR (s.categories_.map List.length)
        (X.map (transformRowPair s))) := by
    simp only [OneHotEncoder.transform]
    rw [hbt]
    simp only [Bind.bind, Except.bind, Pure.pure, Except.pure]
    rw [adjustedRows_eq_map, hd]
    simp only [nValues]
  have hpair : ∀ row ∈ X, transformRowPair s row =
      (List.zipWith (fun c v => (transformCell c v).1) s.categories_ row,
       List.replicate s.categories_.length true) := by
    intro row hrow
    simp only [transformRowPair, hd]
    rw [masks_all_true s.categories_ row (hv row hrow)]
  have hcodeslen : ∀ row ∈ X,
      (List.zipWith (fun c v => (transformCell c v).1)
        s.categories_ row).length = s.categories_.length := by
    intro row hrow
    rw [List.length_zipWith, hrl row hrow]
    omega
  unfold OneHotEncoder.transformDense
  rw [htr]
  simp only [Functor.map, Except.map]
  congr 1
  simp only [assembleCSR, CSR.toDense]
  have hcounts : (X.map (transformRowPair s)).map (fun rc => rc.2.count true) =
      List.replicate X.length s.categories_.length := by
    rw [List.eq_replicate]
    refine ⟨by rw [List.length_map, List.length_map], ?_⟩
    intro b hb
    rcases List.mem_map.mp hb with ⟨rc, hrc, rfl⟩
    rcases List.mem_map.mp hrc with ⟨row, hrow, rfl⟩
    rw [hpair row hrow]
    exact List.count_replicate_self _ _
  have hents : (X.map (transformRowPair s)).map (fun rc =>
      rowEntries (featureIndices (s.categories_.map List.length)) rc.1 rc.2) =
      X.map (fun row => List.zipWith (fun c o => c + o)
        (List.zipWith (fun c v => (transformCell c v).1) s.categories_ row)
        (featureIndices (s.categories_.map List.length))) := by
    rw [List.map_map]
    apply List.map_congr_left
    intro row hrow
    simp only [Function.comp]
    rw [hpair row hrow]
    simp only
    rw [show List.replicate s.categories_.length true =
        List.replicate (List.zipWith (fun c v => (transformCell c v).1)
          s.categories_ row).length true from by rw [hcodeslen row hrow]]
    exact rowEntries_all_true _ _ (by
      rw [hcodeslen row hrow]
      unfold featureIndices
      rw [List.length_scanl, List.length_map]
      omega)
  rw [hcounts, hents, List.length_map, featureIndices_getLastD]
  have hentlen : ∀ e ∈ X.map (fun row => List.zipWith (fun c o => c + o)
      (List.zipWith (fun c v => (transformCell c v).1) s.categories_ row)
      (featureIndices (s.categories_.map List.length))),
      e.length = s.categories_.length := by
    intro e he
    rcases List.mem_map.mp he with ⟨row, hrow, rfl⟩
    rw [List.length_zipWith, hcodeslen row hrow]
    unfold featureIndices
    rw [List.length_scanl, List.length_map]
    omega
  rw [List.sum_replicate, smul_eq_mul]
  apply List.ext_getElem
  · rw [List.length_map, List.length_range, List.length_map]
  · intro r h1 h2
    rw [List.length_map, List.length_range] at h1
    rw [List.getElem_map, List.getElem_range, List.getElem_map]
    have hcr := csr_denseRow s.categories_.length
      ((s.categories_.map List.length).sum)
      (X.map (fun row => List.zipWith (fun c o => c + o)
        (List.zipWith (fun c v => (transformCell c v).1) s.categories_ row)
        (featureIndices (s.categories_.map List.length)))) r
      (by rw [List.length_map]; omega) hentlen
    rw [List.length_map] at hcr
    rw [hcr]
    rw [getD_map_of_lt _ X r [] [] h1]
    rw [show X.getD r [] = X[r] from List.getD_eq_getElem X [] h1]
    have hmem : X[r] ∈ X := List.getElem_mem h1
    exact densify_flatten _ _ (codes_lt s.categories_ X[r] (hv _ hmem))

theorem invColumn_oneHot (s : FittedState) (hu : String) (a : Nat)
    (X : List (List NVal)) (hd : s.drop_idx_ = none)
    (haN : a < s.categories_.length)
    (hv : ∀ row ∈ X, List.Forall₂ (fun v c => v ∈ c) row s.categories_) :
    invColumn s hu a (X.map (fun row =>
      oneHot ((s.categories_.map List.length).getD a 0)
        ((List.zipWith (fun c v => (transformCell c v).1)
          s.categories_ row).getD a 0))) =
    .ok (X.map (fun row => some (row.getD a (NVal.num 0)))) := by
  cases X with
  | nil => exact invColumn_nil s hu a
  | cons x xs =>
    have hmem0 : x.getD a (NVal.num 0) ∈ s.categories_.getD a [] :=
      forall₂_mem_getD x s.categories_ (hv x (List.mem_cons_self x xs)) a haN
    have heff : s.effCats a = s.categories_.getD a [] := by
      simp only [FittedState.effCats, FittedState.dropAt, hd]
    have hw0 : ¬(s.effCats a).length = 0 := by
      rw [heff, List.length_eq_zero]
      intro h0
      rw [h0] at hmem0
      cases hmem0
    have hwa : (s.categories_.map List.length).getD a 0 =
        (s.categories_.getD a []).length :=
      getD_map_of_lt List.length s.categories_ a 0 [] haN
    have hcell : ∀ row ∈ x :: xs,
        (List.zipWith (fun c v => (transformCell c v).1)
          s.categories_ row).getD a 0 =
        (s.categories_.getD a []).indexOf (row.getD a (NVal.num 0)) ∧
        (List.zipWith (fun c v => (transformCell c v).1)
          s.categories_ row).getD a 0 < (s.categories_.getD a []).length := by
      intro row hrow
      have hmemr : row.getD a (NVal.num 0) ∈ s.categories_.getD a [] :=
        forall₂_mem_getD row s.categories_ (hv row hrow) a haN
      have hra : a < row.length := by
        rw [(hv row hrow).length_eq]
        exact haN
      have hg := getD_zipWith_of_lt (fun c v => (transformCell c v).1)
        s.categories_ row a 0 [] (NVal.num 0) haN hra
      constructor
      · rw [hg]
        exact transformCell_fst_of_valid _ _ (List.elem_iff.mpr hmemr)
      · rw [hg]
        exact transformCell_lt_of_valid _ _
          (by rw [transformCell_snd]; exact List.elem_iff.mpr hmemr)
    have hsum : ∀ sub ∈ (x :: xs).map (fun row =>
        oneHot ((s.categories_.map List.length).getD a 0)
          ((List.zipWith (fun c v => (transformCell c v).1)
            s.categories_ row).getD a 0)), ¬sub.sum = 0 := by
      intro sub hsub
      rcases List.mem_map.mp hsub with ⟨row, hrow, rfl⟩
      rw [oneHot_sum _ _ (by rw [hwa]; exact (hcell row hrow).2)]
      omega
    have hbase : (((x :: xs).map (fun row =>
        oneHot ((s.categories_.map List.length).getD a 0)
          ((List.zipWith (fun c v => (transformCell c v).1)
            s.categories_ row).getD a 0))).map (fun sub =>
        (s.effCats a).getD (argmaxFirst sub) (NVal.num 0))) =
        (x :: xs).map (fun row => row.getD a (NVal.num 0)) := by
      rw [List.map_map]
      apply List.map_congr_left
      intro row hrow
      simp only [Function.comp]
      rw [argmaxFirst_oneHot _ _ (by rw [hwa]; exact (hcell row hrow).2)]
      rw [heff, (hcell row hrow).1]
      exact getD_indexOf _ _ _ (forall₂_mem_getD row s.categories_
        (hv row hrow) a haN)
    by_cases hig : (hu == "ignore") = true
    · rw [invColumn_ignore s hu a _ hw0 hig]
      rw [zipWith_ite_some _ _ hsum, hbase, List.map_map]
      simp [Function.comp]
    · have hig2 : (hu == "ignore") = false := by
        simp only [Bool.not_eq_true] at hig
        exact hig
      have hany : ((x :: xs).map (fun row =>
          oneHot ((s.categories_.map List.length).getD a 0)
            ((List.zipWith (fun c v => (transformCell c v).1)
              s.categories_ row).getD a 0))).any
          (fun sub => sub.sum = 0) = false := by
        rw [List.any_eq_false]
        intro sub hsub
        simpa using hsum sub hsub
      rw [invColumn_noZero s hu a _ hw0 hig2 hany]
      rw [hbase, List.map_map]
      simp [Function.comp]

theorem invGo_blocks (s : FittedState) (hu : String) (X : List (List NVal))
    (hd : s.drop_idx_ = none)
    (hv : ∀ row ∈ X, List.Forall₂ (fun v c => v ∈ c) row s.categories_) :
    ∀ m a, a + m ≤ s.categories_.length →
    invGo s hu (X.map (fun row =>
        (List.zipWith oneHot (s.categories_.map List.length)
          (List.zipWith (fun c v => (transformCell c v).1)
            s.categories_ row)).flatten))
      (List.range' a m) (colOffset s a) =
    .ok ((List.range' a m).map (fun q =>
      X.map (fun row => some (row.getD q (NVal.num 0))))) := by
  intro m
  induction m with
  | zero => intro a _; rfl
  | succ m2 ih =>
    intro a ha
    have haN : a < s.categories_.length := by omega
    rw [List.range'_succ]
    simp only [invGo]
    have hsubs : (X.map (fun row =>
        (List.zipWith oneHot (s.categories_.map List.length)
          (List.zipWith (fun c v => (transformCell c v).1)
            s.categories_ row)).flatten)).map
        (fun row => (row.drop (colOffset s a)).take (s.effCats a).length) =
        X.map (fun row =>
          oneHot ((s.categories_.map List.length).getD a 0)
            ((List.zipWith (fun c v => (transformCell c v).1)
              s.categories_ row).getD a 0)) := by
      rw [List.map_map]
      apply List.map_congr_left
      intro row hrow
      simp only [Function.comp]
      have hra : row.length = s.categories_.length := (hv row hrow).length_eq
      have hclen : (List.zipWith (fun c v => (transformCell c v).1)
          s.categories_ row).length = s.categories_.length := by
        rw [List.length_zipWith, hra]
        omega
      have hlensF : (List.zipWith oneHot (s.categories_.map List.length)
          (List.zipWith (fun c v => (transformCell c v).1)
            s.categories_ row)).map List.length =
          s.categories_.map List.length :=
        map_length_zipWith_oneHot _ _ (by rw [hclen, List.length_map])
      have hblen : a < (List.zipWith oneHot (s.categories_.map List.length)
          (List.zipWith (fun c v => (transformCell c v).1)
            s.categories_ row)).length := by
        rw [List.length_zipWith, hclen, List.length_map]
        omega
      have hslice := flatten_slice2 (List.zipWith oneHot
        (s.categories_.map List.length)
        (List.zipWith (fun c v => (transformCell c v).1)
          s.categories_ row)) a hblen
      rw [hlensF] at hslice
      rw [colOffset_eq_sum s hd a (Nat.le_of_lt haN),
        show (s.effCats a).length =
          (s.categories_.map List.length).getD a 0 from by
        simp only [FittedState.effCats, FittedState.dropAt, hd]
        exact (getD_map_of_lt List.length s.categories_ a 0 [] haN).symm]
      rw [hslice]
      exact getD_zipWith_of_lt oneHot (s.categories_.map List.length)
        (List.zipWith (fun c v => (transformCell c v).1) s.categories_ row)
        a [] 0 0 (by rw [List.length_map]; omega) (by rw [hclen]; omega)
    rw [hsubs, invColumn_oneHot s hu a X hd haN hv]
    simp only [Bind.bind, Except.bind]
    rw [show colOffset s a + (s.effCats a).length = colOffset s (a + 1) from
      (colOffset_succ s a).symm]
    rw [ih (a + 1) (by omega)]
    rw [List.map_cons]
    rfl

/-- C1: for every encoder fitted with `drop=None` and every input table
whose cells all belong to the fitted per-column category lists,
`inverse_transform` applied to the densified output of `transform`
returns the original table (every cell recovered exactly, wrapped in the
object-dtype `some`). -/
theorem onehot_roundtrip (s : FittedState) (hu : String)
    (X : List (List NVal)) (hd : s.drop_idx_ = none)
    (hv : ∀ row ∈ X, List.Forall₂ (fun v c => v ∈ c) row s.categories_) :
    (OneHotEncoder.transformDense s hu X).bind
      (fun D => (OneHotEncoder.inverse_transform s hu D).1) =
    .ok (X.map (fun row => row.map some)) := by
  have hrl : ∀ row ∈ X, row.length = s.categories_.length := by
    intro row hrow
    exact (hv row hrow).length_eq
  rw [transformDense_eq s hu X hd hv]
  simp only [Except.bind]
  have hD : ∀ row2 ∈ X.map (fun row =>
      (List.zipWith oneHot (s.categories_.map List.length)
        (List.zipWith (fun c v => (transformCell c v).1)
          s.categories_ row)).flatten), row2.length = nTransformed s := by
    intro row2 h2
    rcases List.mem_map.mp h2 with ⟨row, hrow, rfl⟩
    rw [List.length_flatten]
    rw [map_length_zipWith_oneHot _ _ (by
      rw [List.length_zipWith, hrl row hrow, List.length_map]
      omega)]
    simp only [nTransformed, hd, nValues]
  rw [inverse_transform_fst s hu _ hD]
  rw [List.range_eq_range']
  have hig := invGo_blocks s hu X hd hv s.categories_.length 0 (by omega)
  rw [show colOffset s 0 = 0 from rfl] at hig
  rw [hig]
  simp only [Except.map]
  congr 1
  unfold colsToRows
  rw [List.length_map, ← List.range_eq_range']
  apply List.ext_getElem
  · rw [List.length_map, List.length_range, List.length_map]
  · intro r h1 h2
    rw [List.length_map, List.length_range] at h1
    rw [List.getElem_map, List.getElem_range, List.getElem_map]
    apply List.ext_getElem
    · rw [List.length_map, List.length_map, List.length_range,
        List.length_map]
      exact (hrl X[r] (List.getElem_mem h1)).symm
    · intro q hq1 hq2
      rw [List.length_map, List.length_map, List.length_range] at hq1
      rw [List.length_map] at hq2
      rw [List.getElem_map, List.getElem_map, List.getElem_map,
        List.getElem_range]
      rw [getD_map_of_lt (fun row => some (row.getD q (NVal.num 0)))
        X r none [] h1]
      rw [show X.getD r [] = X[r] from List.getD_eq_getElem X [] h1]
      rw [List.getD_eq_getElem _ _ hq2]

theorem onehot_roundtrip_witness :
    (OneHotEncoder.transformDense
        ⟨[[NVal.num 0, NVal.num 1], [NVal.num 5]], none⟩
        "error" [[NVal.num 1, NVal.num 5]]).bind
      (fun D => (OneHotEncoder.inverse_transform
        ⟨[[NVal.num 0, NVal.num 1], [NVal.num 5]], none⟩ "error" D).1) =
    .ok [[some (NVal.num 1), some (NVal.num 5)]] := by
  have h := onehot_roundtrip
    ⟨[[NVal.num 0, NVal.num 1], [NVal.num 5]], none⟩ "error"
    [[NVal.num 1, NVal.num 5]] rfl (by
      intro row hrow
      simp only [List.mem_singleton] at hrow
      subst hrow
      refine List.Forall₂.cons ?_ (List.Forall₂.cons ?_ List.Forall₂.nil) <;>
        simp)
  simpa using h

end AfSklearn
